import Mathlib

/-!
# Centralized logging system: log server store, query engine and collector enrichment

A shallow embedding of `log-server/main.go` (the in-memory store, its `Query`
filter, the sort/limit passes of `queryHandler`, `ingestLogHandler` and
`metricsHandler`) and of `log-collector/main.go` (`extractUsername`,
`extractSeverity`, `processLog`, `handleConnection`, `forwardToLogServer`).

Modelling conventions.

* Go strings are Lean `String`s: the text is taken to be valid UTF-8, which is
  what `encoding/json` and `net/url` hand to the program.  Go compares strings
  bytewise; on valid UTF-8 that order is the order of code points, which is
  the order of Lean strings.
* `strings.ToLower` and `strings.ToUpper` depend on the Unicode case tables of
  the Go runtime.  They are a parameter (`CaseMapping`) of every definition
  that calls them, so each theorem holds for whatever the two functions
  compute.  `asciiCase` is the instance used to evaluate examples on ASCII text.
* A Go `map[string]T` is the list of its key/value pairs in the order in which
  a `range` loop visits them.  The keys of a real map are pairwise distinct.
* The mutex of `InMemoryStore` is not part of the state: every method body
  runs under it from the first to the last statement.
* Library routines whose text is not part of the repository are parameters:
  the JSON decoders (`decode`), `sort.Slice` (`SliceSorter`) and `http.Post`
  (`post`).  `bufio.Scanner` is modelled with its documented token limit.
* Where the identity of a map object matters (`Metrics` returns the maps of
  the store, not copies), the store is modelled a second time over a heap of
  map objects (`Memory`), and shown to agree with the store of values.
* `int` counters are natural numbers: `totalLogs` and the map counts are
  bounded by the number of stored entries, which is itself a Go `int`.
-/

namespace LogServer

/-- The `LogEntry` struct of `log-server/main.go`. -/
structure LogEntry where
  Timestamp : String
  EventCategory : String
  Username : String
  Hostname : String
  Severity : String
  RawMessage : String
  IsBlacklisted : Bool
  EventSource : String
  deriving DecidableEq, Repr

/-- The two case functions of Go's `strings` package that the server calls. -/
structure CaseMapping where
  toLower : String → String
  toUpper : String → String

/-- Lower-case an ASCII letter, leave any other character alone. -/
def asciiLowerChar (c : Char) : Char :=
  if 'A' ≤ c ∧ c ≤ 'Z' then Char.ofNat (c.toNat + 32) else c

/-- Upper-case an ASCII letter, leave any other character alone. -/
def asciiUpperChar (c : Char) : Char :=
  if 'a' ≤ c ∧ c ≤ 'z' then Char.ofNat (c.toNat - 32) else c

/-- The case functions of Go on ASCII text. -/
def asciiCase : CaseMapping where
  toLower := fun s => String.mk (s.data.map asciiLowerChar)
  toUpper := fun s => String.mk (s.data.map asciiUpperChar)

/-- A `map[string]int` of counters, as the list of its pairs. -/
abbrev CountMap := List (String × Nat)

/-- A `map[string]string` of query parameters, in the order `range` visits it. -/
abbrev Params := List (String × String)

/-- Go's `m[k]`, with the `ok` flag as the option. -/
def mapGet {β : Type} (m : List (String × β)) (k : String) : Option β :=
  match m with
  | [] => none
  | (k', v) :: rest => if k' = k then some v else mapGet rest k

/-- Go's `m[k]++` on a counter map: a missing key reads as zero. -/
def mapIncr (m : CountMap) (k : String) : CountMap :=
  match m with
  | [] => [(k, 1)]
  | (k', n) :: rest => if k' = k then (k', n + 1) :: rest else (k', n) :: mapIncr rest k

/-- Go's `m[k] = v`: the binding of `k` is replaced, or added when missing. -/
def mapSet {β : Type} (m : List (String × β)) (k : String) (v : β) : List (String × β) :=
  match m with
  | [] => [(k, v)]
  | (k', v') :: rest => if k' = k then (k', v) :: rest else (k', v') :: mapSet rest k v

/-- The sum of all values of a counter map. -/
def mapSum (m : CountMap) : Nat := (m.map Prod.snd).sum

/-- The keys of a map are pairwise distinct. -/
def DistinctKeys {β : Type} (m : List (String × β)) : Prop := (m.map Prod.fst).Nodup

/-- The fields of `InMemoryStore` (the mutex apart). -/
structure InMemoryStore where
  logs : List LogEntry
  totalLogs : Nat
  categoryCount : CountMap
  severityCount : CountMap
  deriving DecidableEq, Repr

/-- The constructor `NewInMemoryStore`: no logs, zero total, two empty maps. -/
def NewInMemoryStore : InMemoryStore :=
  { logs := [], totalLogs := 0, categoryCount := [], severityCount := [] }

/-- The method `InMemoryStore.Save`: append, then bump the total and one binding of
each counter map. -/
def Save (cm : CaseMapping) (s : InMemoryStore) (entry : LogEntry) : InMemoryStore :=
  { logs := s.logs ++ [entry]
    totalLogs := s.totalLogs + 1
    categoryCount := mapIncr s.categoryCount entry.EventCategory
    severityCount := mapIncr s.severityCount (cm.toUpper entry.Severity) }

/-- The method `InMemoryStore.Clear`: every field is reset. -/
def Clear (_s : InMemoryStore) : InMemoryStore :=
  { logs := [], totalLogs := 0, categoryCount := [], severityCount := [] }

/-- The body of the inner loop of `Query` for one key/value pair: the new
value of `match` given its old value. -/
def matchStep (cm : CaseMapping) (log : LogEntry) (acc : Bool) (kv : String × String) : Bool :=
  let key := kv.1
  let val := cm.toLower kv.2
  if key = "service" ∨ key = "event.category" then
    if cm.toLower log.EventCategory ≠ val then false else acc
  else if key = "level" ∨ key = "severity" then
    if cm.toLower log.Severity ≠ val then false else acc
  else if key = "username" then
    if cm.toLower log.Username ≠ val then false else acc
  else if key = "is.blacklisted" then
    let acc1 := if val = "true" ∧ !log.IsBlacklisted then false else acc
    if val = "false" ∧ log.IsBlacklisted then false else acc1
  else acc

/-- The inner loop of `Query`: `match` starts true and every pair is visited. -/
def matchLog (cm : CaseMapping) (log : LogEntry) (params : Params) : Bool :=
  params.foldl (matchStep cm log) true

/-- The outer loop of `Query`: one pass over `logs`, appending the matches. -/
def queryLoop (cm : CaseMapping) (params : Params) (filtered : List LogEntry) :
    List LogEntry → List LogEntry
  | [] => filtered
  | log :: rest =>
    if matchLog cm log params then queryLoop cm params (filtered ++ [log]) rest
    else queryLoop cm params filtered rest

/-- The method `InMemoryStore.Query`: `filtered` starts empty. -/
def Query (cm : CaseMapping) (s : InMemoryStore) (params : Params) : List LogEntry :=
  queryLoop cm params [] s.logs

/-- The value `Metrics` returns: the map with keys `total_logs`, `by_category`
and `by_severity`. -/
structure MetricsSnapshot where
  total_logs : Nat
  by_category : CountMap
  by_severity : CountMap
  deriving DecidableEq, Repr

/-- The method `InMemoryStore.Metrics`. -/
def Metrics (s : InMemoryStore) : MetricsSnapshot :=
  { total_logs := s.totalLogs, by_category := s.categoryCount, by_severity := s.severityCount }

/-- A mutating call on the store. -/
inductive StoreOp where
  | save (entry : LogEntry)
  | clear
  deriving DecidableEq, Repr

/-- Run one mutating call. -/
def applyOp (cm : CaseMapping) (s : InMemoryStore) : StoreOp → InMemoryStore
  | .save entry => Save cm s entry
  | .clear => Clear s

/-- The store after a finite sequence of `Save` and `Clear` calls on a fresh store. -/
def runOps (cm : CaseMapping) (ops : List StoreOp) : InMemoryStore :=
  ops.foldl (applyOp cm) NewInMemoryStore

/-- The store after saving the given entries, in order, into `s`. -/
def saveAll (cm : CaseMapping) (s : InMemoryStore) (entries : List LogEntry) : InMemoryStore :=
  entries.foldl (Save cm) s

/-- The first entry saved by `TestQueryHandler_Filtering` and `TestMetricsHandler`. -/
def testAdmin : LogEntry :=
  { Timestamp := "2025-08-06T07:47:31Z", EventCategory := "login.audit", Username := "admin",
    Hostname := "host1", Severity := "INFO", RawMessage := "msg1", IsBlacklisted := false,
    EventSource := "linux" }

/-- The second entry saved by `TestQueryHandler_Filtering`. -/
def testRoot : LogEntry :=
  { Timestamp := "2025-08-06T07:47:32Z", EventCategory := "login.audit", Username := "root",
    Hostname := "host2", Severity := "ERROR", RawMessage := "msg2", IsBlacklisted := true,
    EventSource := "linux" }

/-- The second entry saved by `TestMetricsHandler`. -/
def testRootMetrics : LogEntry :=
  { Timestamp := "2025-08-06T07:48:00Z", EventCategory := "login.audit", Username := "root",
    Hostname := "host2", Severity := "ERROR", RawMessage := "msg2", IsBlacklisted := true,
    EventSource := "linux" }

/-- The number of entries of `logs` for which `p` holds. -/
def countWhere (p : LogEntry → Bool) (logs : List LogEntry) : Nat := (logs.filter p).length

/-- The counters agree with the stored sequence. -/
def Consistent (s : InMemoryStore) : Prop :=
  s.totalLogs = s.logs.length ∧ mapSum s.categoryCount = s.logs.length ∧
    mapSum s.severityCount = s.logs.length

/-- What a counter map must hold for the key `k` when `n` entries carry it:
no binding for a count of zero, the count otherwise. -/
def expectedCount (n : Nat) : Option Nat := if n = 0 then none else some n

/-- Both counter maps are maps (distinct keys) and bind each key to the number
of stored entries that carry it. -/
def CountsExact (cm : CaseMapping) (s : InMemoryStore) : Prop :=
  DistinctKeys s.categoryCount ∧ DistinctKeys s.severityCount ∧
  (∀ c : String, mapGet s.categoryCount c =
    expectedCount (countWhere (fun e => decide (e.EventCategory = c)) s.logs)) ∧
  (∀ k : String, mapGet s.severityCount k =
    expectedCount (countWhere (fun e => decide (cm.toUpper e.Severity = k)) s.logs))

/-- Two strings are equal ignoring letter case: their lower-cased forms are equal. -/
def eqIgnoreCase (cm : CaseMapping) (a b : String) : Bool :=
  decide (cm.toLower a = cm.toLower b)

/-- The boolean a predicate value denotes: `true` or `false` in any letter
case, and no boolean for any other text. -/
def boolValue (cm : CaseMapping) (v : String) : Option Bool :=
  if cm.toLower v = "true" then some true
  else if cm.toLower v = "false" then some false
  else none

/-- The keys `Query` recognises. -/
def recognizedKeys : List String :=
  ["service", "event.category", "level", "severity", "username", "is.blacklisted"]

/-- One predicate as the specification words it: the category, severity and
username keys compare ignoring case, and `is.blacklisted` holds when its value
equals the entry's flag. -/
def statedSatisfies (cm : CaseMapping) (log : LogEntry) (kv : String × String) : Bool :=
  if kv.1 = "service" ∨ kv.1 = "event.category" then eqIgnoreCase cm log.EventCategory kv.2
  else if kv.1 = "level" ∨ kv.1 = "severity" then eqIgnoreCase cm log.Severity kv.2
  else if kv.1 = "username" then eqIgnoreCase cm log.Username kv.2
  else if kv.1 = "is.blacklisted" then decide (boolValue cm kv.2 = some log.IsBlacklisted)
  else true

/-- The result the specification words describe: the stored entries that
satisfy every supplied predicate, in stored order. -/
def statedQuery (cm : CaseMapping) (s : InMemoryStore) (params : Params) : List LogEntry :=
  s.logs.filter (fun log => params.all (statedSatisfies cm log))

/-- One predicate with the blacklist key read leniently: a value that denotes
a boolean must equal the entry's flag, a value that denotes none places no
constraint. -/
def satisfies (cm : CaseMapping) (log : LogEntry) (kv : String × String) : Bool :=
  if kv.1 = "service" ∨ kv.1 = "event.category" then eqIgnoreCase cm log.EventCategory kv.2
  else if kv.1 = "level" ∨ kv.1 = "severity" then eqIgnoreCase cm log.Severity kv.2
  else if kv.1 = "username" then eqIgnoreCase cm log.Username kv.2
  else if kv.1 = "is.blacklisted" then
    match boolValue cm kv.2 with
    | some b => decide (log.IsBlacklisted = b)
    | none => true
  else true

/-! ## The query handler -/

/-- The requirement Go's `sort` package puts on a `less` function: a strict
weak ordering. -/
def StrictWeakOrdering (less : LogEntry → LogEntry → Bool) : Prop :=
  (∀ a, less a a = false) ∧
  (∀ a b c, less a b = true → less b c = true → less a c = true) ∧
  (∀ a b c, less a b = false → less b c = false → less a c = false)

/-- Go's `sort.Slice`, a library routine, with the contract its documentation
gives: the slice is rearranged (nothing added, dropped or changed) so that no
element is `less` than one before it, provided `less` is a strict weak
ordering; the order among elements neither of which is `less` than the other
is not promised. -/
structure SliceSorter where
  sortSlice : List LogEntry → (LogEntry → LogEntry → Bool) → List LogEntry
  perm : ∀ x less, (sortSlice x less).Perm x
  sorted : ∀ x less, StrictWeakOrdering less →
    (sortSlice x less).Pairwise (fun a b => less b a = false)

/-- Insertion sort, the routine `sort.Slice` itself runs on short slices, as
an instance of the contract. -/
def insertionSorter : SliceSorter where
  sortSlice := fun x less => x.insertionSort (fun a b => less b a = false)
  perm := fun x less => List.perm_insertionSort _ x
  sorted := by
    intro x less h
    obtain ⟨hirr, htr, hneg⟩ := h
    haveI : IsTotal LogEntry (fun a b => less b a = false) := ⟨by
      intro a b
      cases hba : less b a
      · exact Or.inl rfl
      · right
        cases hab : less a b
        · rfl
        · have := htr a b a hab hba
          rw [hirr a] at this
          exact absurd this (by decide)⟩
    haveI : IsTrans LogEntry (fun a b => less b a = false) :=
      ⟨fun a b c hab hbc => hneg c b a hbc hab⟩
    exact List.sorted_insertionSort _ x

/-- Go's `<` on strings: lexicographic on the bytes, which on valid UTF-8 is
lexicographic on the code points. -/
def strLess (a b : String) : Bool := decide (a.data < b.data)

/-- The `less` closure `queryHandler` passes to `sort.Slice`. -/
def timestampLess (a b : LogEntry) : Bool := strLess a.Timestamp b.Timestamp

/-- The value of a decimal digit. -/
def digitValue (c : Char) : Option Nat :=
  if '0' ≤ c ∧ c ≤ '9' then some (c.toNat - '0'.toNat) else none

/-- Read a run of decimal digits, most significant first, onto `n`. -/
def parseDigits : List Char → Nat → Option Nat
  | [], n => some n
  | c :: cs, n =>
    match digitValue c with
    | some d => parseDigits cs (n * 10 + d)
    | none => none

/-- The integer a text denotes in base ten: an optional `+` or `-` and then
one or more decimal digits. -/
def parseSigned (str : String) : Option Int :=
  match str.data with
  | [] => none
  | '-' :: ds => if ds = [] then none else (parseDigits ds 0).map (fun n => -(n : Int))
  | '+' :: ds => if ds = [] then none else (parseDigits ds 0).map (fun n => (n : Int))
  | ds => (parseDigits ds 0).map (fun n => (n : Int))

/-- Go's `strconv.Atoi` for a 64-bit `int`: the integer the text denotes, and
an error (no value) for text of another shape or a value outside the range of
`int`. -/
def Atoi (str : String) : Option Int :=
  match parseSigned str with
  | some n => if -(2 : Int) ^ 63 ≤ n ∧ n < (2 : Int) ^ 63 then some n else none
  | none => none

/-- The first loop of `queryHandler`: each key of the URL query that has a
value is bound to its first value. -/
def handlerParams (urlQuery : List (String × List String)) : Params :=
  urlQuery.foldl
    (fun params kv =>
      match kv.2 with
      | v0 :: _ => mapSet params kv.1 v0
      | [] => params)
    []

/-- The sort pass of `queryHandler`; a missing `sort` key reads as the empty
string. -/
def sortStage (srt : SliceSorter) (cm : CaseMapping) (params : Params)
    (filtered : List LogEntry) : List LogEntry :=
  if cm.toLower ((mapGet params "sort").getD "") = "timestamp" then
    srt.sortSlice filtered timestampLess
  else filtered

/-- The limit pass of `queryHandler`. -/
def limitStage (params : Params) (filtered : List LogEntry) : List LogEntry :=
  match mapGet params "limit" with
  | some limitStr =>
    match Atoi limitStr with
    | some limit =>
      if 0 < limit ∧ limit < (filtered.length : Int) then filtered.take limit.toNat
      else filtered
    | none => filtered
  | none => filtered

/-- The list `queryHandler` encodes into the response, given the store and the
parameter map built from the URL. -/
def handlerResult (srt : SliceSorter) (cm : CaseMapping) (s : InMemoryStore)
    (params : Params) : List LogEntry :=
  limitStage params (sortStage srt cm params (Query cm s params))

/-- The handler `queryHandler`: build the parameter map, query, sort, limit. -/
def queryHandler (srt : SliceSorter) (cm : CaseMapping) (s : InMemoryStore)
    (urlQuery : List (String × List String)) : List LogEntry :=
  handlerResult srt cm s (handlerParams urlQuery)

/-! ## The ingest handler -/

/-- Go's `http.StatusOK`. -/
def StatusOK : Nat := 200

/-- Go's `http.StatusAccepted`. -/
def StatusAccepted : Nat := 202

/-- Go's `http.StatusBadRequest`. -/
def StatusBadRequest : Nat := 400

/-- The handler `ingestLogHandler`: the store it leaves and the status it
replies.  The JSON decoder of the Go library is the parameter `decode`, with no
value when `Decode` returns an error. -/
def ingestLogHandler (decode : String → Option LogEntry) (cm : CaseMapping)
    (s : InMemoryStore) (body : String) : InMemoryStore × Nat :=
  match decode body with
  | none => (s, StatusBadRequest)
  | some entry => (Save cm s entry, StatusOK)

/-- The entry posted by `TestIngestLogHandler`. -/
def testIngestEntry : LogEntry :=
  { Timestamp := "2025-08-06T07:47:31Z", EventCategory := "login.audit", Username := "root",
    Hostname := "aiops9242", Severity := "INFO",
    RawMessage := "<86> aiops9242 sudo: pam_unix(sudo:session): session opened for user root(uid=0)",
    IsBlacklisted := false, EventSource := "linux" }

/-- The body `json.Marshal` writes for `testIngestEntry`. -/
def testIngestBody : String :=
  "\x7b\"timestamp\":\"2025-08-06T07:47:31Z\",\"event.category\":\"login.audit\",\"username\":\"root\",\"hostname\":\"aiops9242\",\"severity\":\"INFO\",\"raw.message\":\"\\u003c86\\u003e aiops9242 sudo: pam_unix(sudo:session): session opened for user root(uid=0)\",\"is.blacklisted\":false,\"event.source.type\":\"linux\"\x7d"

/-- A stand-in for the JSON decoder, to evaluate examples: it decodes
`testIngestBody` to `testIngestEntry`, as Go does, and is given no other body
it accepts. -/
def sampleDecode (body : String) : Option LogEntry :=
  if body = testIngestBody then some testIngestEntry else none

/-! ## The store with its maps as references -/

/-- The map objects of the heap; a Go map value is a reference to one of
them, here its index. -/
abbrev MapHeap := List CountMap

/-- The map object at an address. -/
def heapGet (heap : MapHeap) (addr : Nat) : CountMap := heap.getD addr []

/-- The fields of `InMemoryStore`, the two map fields as the references they are. -/
structure StoreRefs where
  logs : List LogEntry
  totalLogs : Nat
  categoryCount : Nat
  severityCount : Nat
  deriving DecidableEq, Repr

/-- The heap together with the store whose map fields point into it. -/
structure Memory where
  heap : MapHeap
  store : StoreRefs
  deriving DecidableEq, Repr

/-- The constructor `NewInMemoryStore`: two fresh empty map objects. -/
def newMemory : Memory :=
  { heap := [[], []]
    store := { logs := [], totalLogs := 0, categoryCount := 0, severityCount := 1 } }

/-- The method `Save` on the heap: both `++` update the map object in place. -/
def saveMemory (cm : CaseMapping) (w : Memory) (entry : LogEntry) : Memory :=
  let heap1 := w.heap.set w.store.categoryCount
    (mapIncr (heapGet w.heap w.store.categoryCount) entry.EventCategory)
  let heap2 := heap1.set w.store.severityCount
    (mapIncr (heapGet heap1 w.store.severityCount) (cm.toUpper entry.Severity))
  { heap := heap2
    store := { w.store with logs := w.store.logs ++ [entry], totalLogs := w.store.totalLogs + 1 } }

/-- The method `Clear` on the heap: `make` allocates two new map objects and
the old ones stay as they are. -/
def clearMemory (w : Memory) : Memory :=
  { heap := w.heap ++ [[], []]
    store :=
      { logs := []
        totalLogs := 0
        categoryCount := w.heap.length
        severityCount := w.heap.length + 1 } }

/-- Run one mutating call on the heap. -/
def applyOpMemory (cm : CaseMapping) (w : Memory) : StoreOp → Memory
  | .save entry => saveMemory cm w entry
  | .clear => clearMemory w

/-- Run a sequence of mutating calls on the heap. -/
def runMemory (cm : CaseMapping) (w : Memory) (ops : List StoreOp) : Memory :=
  ops.foldl (applyOpMemory cm) w

/-- The value `Metrics` returns in Go: `totalLogs` is copied, the two maps are
stored as references to the map objects of the store. -/
structure MetricsRefs where
  total_logs : Nat
  by_category : Nat
  by_severity : Nat
  deriving DecidableEq, Repr

/-- The method `Metrics` on the heap. -/
def metricsMemory (w : Memory) : MetricsRefs :=
  { total_logs := w.store.totalLogs, by_category := w.store.categoryCount,
    by_severity := w.store.severityCount }

/-- What `json.NewEncoder(w).Encode(metrics)` writes: the maps are read from
the heap as it is when the encoder runs. -/
def encodeMetrics (heap : MapHeap) (m : MetricsRefs) : MetricsSnapshot :=
  { total_logs := m.total_logs, by_category := heapGet heap m.by_category,
    by_severity := heapGet heap m.by_severity }

/-- The handler `metricsHandler`: `store.Metrics()` returns and releases the
mutex, then the result is encoded.  The argument `between` is the calls other
requests complete on the store between the two statements. -/
def metricsHandler (cm : CaseMapping) (w : Memory) (between : List StoreOp) : MetricsSnapshot :=
  let metrics := metricsMemory w
  encodeMetrics (runMemory cm w between).heap metrics

/-- The store a memory state stands for: the map fields read through. -/
def storeOf (w : Memory) : InMemoryStore :=
  { logs := w.store.logs, totalLogs := w.store.totalLogs,
    categoryCount := heapGet w.heap w.store.categoryCount,
    severityCount := heapGet w.heap w.store.severityCount }

/-- The two map fields point at two different objects of the heap. -/
def ValidRefs (w : Memory) : Prop :=
  w.store.categoryCount < w.heap.length ∧ w.store.severityCount < w.heap.length ∧
    w.store.categoryCount ≠ w.store.severityCount

/-! ## Case mapping beyond ASCII -/

/-- The Kelvin sign, U+212A. -/
def kelvinSign : Char := Char.ofNat 0x212A

/-- Go's case functions on ASCII text and the Kelvin sign: `unicode.ToLower`
maps U+212A to `k`, and `unicode.ToUpper` leaves it, an upper-case letter,
as it is. -/
def kelvinCase : CaseMapping where
  toLower := fun s =>
    String.mk (s.data.map (fun c => if c = kelvinSign then 'k' else asciiLowerChar c))
  toUpper := fun s => String.mk (s.data.map asciiUpperChar)

/-- An entry with severity `OK`. -/
def testOk : LogEntry :=
  { Timestamp := "2025-08-06T07:47:31Z", EventCategory := "login.audit", Username := "admin",
    Hostname := "host1", Severity := "OK", RawMessage := "msg1", IsBlacklisted := false,
    EventSource := "linux" }

/-- The text `OK` written with the Kelvin sign for its second letter. -/
def okWithKelvin : String := String.mk ['O', kelvinSign]

end LogServer

namespace LogCollector

/-! ## The collector: `extractUsername` -/

/-- The class `\w` of Go's `regexp`: an ASCII letter, a decimal digit or `_`. -/
def isWordChar (c : Char) : Bool :=
  ('0' ≤ c ∧ c ≤ '9') ∨ ('A' ≤ c ∧ c ≤ 'Z') ∨ c = '_' ∨ ('a' ≤ c ∧ c ≤ 'z')

/-- Match a literal at the head of the text: what follows it, if it is there. -/
def dropLiteral : List Char → List Char → Option (List Char)
  | [], cs => some cs
  | _ :: _, [] => none
  | p :: ps, c :: cs => if p = c then dropLiteral ps cs else none

/-- Match `user (\w+)` anchored at the head of the text: the literal `user `
and then the longest run of word characters, which must not be empty (`+` is
greedy and nothing follows it in the pattern).  The result is the capture. -/
def matchHere (cs : List Char) : Option (List Char) :=
  match dropLiteral "user ".data cs with
  | some rest => if rest.takeWhile isWordChar = [] then none else some (rest.takeWhile isWordChar)
  | none => none

/-- The leftmost match of `user (\w+)`: the start positions are tried from
left to right.  The result is the start offset and the capture. -/
def findMatch : List Char → Nat → Option (Nat × List Char)
  | [], _ => none
  | c :: cs, i =>
    match matchHere (c :: cs) with
    | some w => some (i, w)
    | none => findMatch cs (i + 1)

/-- The call `re.FindStringSubmatch(msg)` for `re = user (\w+)`: no strings when the
pattern does not occur, else the matched text and the text of the group. -/
def FindStringSubmatch (msg : String) : List String :=
  match findMatch msg.data 0 with
  | some (_, w) => [String.mk ("user ".data ++ w), String.mk w]
  | none => []

/-- The function `extractUsername` of `log-collector/main.go`. -/
def extractUsername (msg : String) : String :=
  let submatches := FindStringSubmatch msg
  if submatches.length > 1 then submatches.getD 1 "" else "unknown"

/-- The text `msg` holds the pattern "user X" after the prefix `pre`: the
literal `user `, then the word token `X` (a non-empty run of word characters
that the next character, if any, does not extend), then `rest`. -/
def PatternAt (msg pre X rest : List Char) : Prop :=
  msg = pre ++ ("user ".data ++ (X ++ rest)) ∧ X ≠ [] ∧
    (∀ c ∈ X, isWordChar c = true) ∧ (∀ c, rest.head? = some c → isWordChar c = false)

/-- The message of `TestParseLogMessage`. -/
def testMessage : String :=
  "<86> aiops9242 sudo: pam_unix(sudo:session): session opened for user root(uid=0) by motadata(uid=1000)"

/-! ## The collector: enrichment -/

/-- The struct `RawLog` of `log-collector/main.go`. -/
structure RawLog where
  Timestamp : String
  Hostname : String
  EventSourceType : String
  EventCategory : String
  Message : String
  deriving DecidableEq, Repr

/-- The struct `EnrichedLog` of `log-collector/main.go`. -/
structure EnrichedLog where
  Timestamp : String
  EventCategory : String
  Username : String
  Hostname : String
  Severity : String
  RawMessage : String
  IsBlacklisted : Bool
  deriving DecidableEq, Repr

/-- The package variable `blacklist`, a `map[string]bool`. -/
def blacklist : List (String × Bool) := [("root", true), ("motadata", true)]

/-- Go's `strings.HasPrefix` on the characters. -/
def hasPrefix (substr cs : List Char) : Bool := (dropLiteral substr cs).isSome

/-- Go's `strings.Contains` on the characters: `substr` starts at some offset. -/
def containsChars (substr : List Char) : List Char → Bool
  | [] => hasPrefix substr []
  | c :: cs => hasPrefix substr (c :: cs) || containsChars substr cs

/-- Go's `strings.Contains`. -/
def stringsContains (s substr : String) : Bool := containsChars substr.data s.data

/-- The function `extractSeverity` of `log-collector/main.go`. -/
def extractSeverity (msg : String) : String :=
  if stringsContains msg "<86>" then "INFO" else "UNKNOWN"

/-- The record `processLog` builds and hands to `forwardToLogServer`: the
struct literal, then the assignment of `IsBlacklisted` from the blacklist map
(a missing key reads as `false`). -/
def processLog (raw : RawLog) : EnrichedLog :=
  let enriched : EnrichedLog :=
    { Timestamp := raw.Timestamp
      EventCategory := raw.EventCategory
      Hostname := raw.Hostname
      RawMessage := raw.Message
      Username := extractUsername raw.Message
      Severity := extractSeverity raw.Message
      IsBlacklisted := false }
  { enriched with IsBlacklisted := (LogServer.mapGet blacklist enriched.Username).getD false }

/-- The text holds a bracketed numeric marker: a `<`, one or more decimal
digits, then `>`. -/
def HasNumericMarker (msg : List Char) : Prop :=
  ∃ pre digits post, msg = pre ++ ('<' :: (digits ++ ('>' :: post))) ∧ digits ≠ [] ∧
    ∀ c ∈ digits, '0' ≤ c ∧ c ≤ '9'

/-- The text holds `substr` at some offset. -/
def HasSubstring (msg substr : List Char) : Prop := ∃ pre post, msg = pre ++ (substr ++ post)

/-- A value of a field of a JSON object: the two kinds the log structs use. -/
inductive JsonField where
  | str (s : String)
  | bool (b : Bool)
  deriving DecidableEq, Repr

/-- What `json.Marshal(logEntry)` writes for an `EnrichedLog`: one member per
struct field, named by its `json` tag. -/
def marshalEnriched (e : EnrichedLog) : List (String × JsonField) :=
  [("timestamp", .str e.Timestamp), ("event.category", .str e.EventCategory),
   ("username", .str e.Username), ("hostname", .str e.Hostname),
   ("severity", .str e.Severity), ("raw.message", .str e.RawMessage),
   ("is.blacklisted", .bool e.IsBlacklisted)]

/-- The string member `key` of a JSON object, the zero value when it is missing. -/
def stringMember (obj : List (String × JsonField)) (key : String) : String :=
  match LogServer.mapGet obj key with
  | some (.str s) => s
  | _ => ""

/-- The boolean member `key` of a JSON object, the zero value when it is missing. -/
def boolMember (obj : List (String × JsonField)) (key : String) : Bool :=
  match LogServer.mapGet obj key with
  | some (.bool b) => b
  | _ => false

/-- What the server's `Decode(&entry)` stores in a `LogEntry` for a JSON
object: each field takes the member named by its `json` tag and keeps its zero
value when the object has no such member. -/
def decodeLogEntry (obj : List (String × JsonField)) : LogServer.LogEntry :=
  { Timestamp := stringMember obj "timestamp"
    EventCategory := stringMember obj "event.category"
    Username := stringMember obj "username"
    Hostname := stringMember obj "hostname"
    Severity := stringMember obj "severity"
    RawMessage := stringMember obj "raw.message"
    IsBlacklisted := boolMember obj "is.blacklisted"
    EventSource := stringMember obj "event.source.type" }

/-- The event the login client sends, at a fixed time. -/
def clientEvent : RawLog :=
  { Timestamp := "2025-08-06T07:47:31Z", Hostname := "aiops9242", EventSourceType := "linux",
    EventCategory := "login.audit", Message := testMessage }

/-! ## The collector: connections and forwarding -/

/-- Go's `bufio.MaxScanTokenSize`, the size of the largest buffer a `Scanner`
made by `bufio.NewScanner` grows to. -/
def MaxScanTokenSize : Nat := 64 * 1024

/-- The number of bytes of a text in UTF-8. -/
def byteLength (line : String) : Nat := (line.data.map Char.utf8Size).sum

/-- The helper `dropCR` of `bufio.ScanLines`: one carriage return at the end
of a line belongs to the end-of-line marker. -/
def dropCR (line : String) : String :=
  if line.data.getLast? = some '\r' then String.mk line.data.dropLast else line

/-- The tokens `scanner.Scan()` delivers for the lines of a connection, each
line being the bytes before a newline: a line and its newline must fit the
buffer, so at a line of `MaxScanTokenSize` bytes or more `Scan` returns false
for good (`ErrTooLong`) and the loop of `handleConnection` ends. -/
def scanTokens : List String → List String
  | [] => []
  | line :: rest =>
    if byteLength line ≥ MaxScanTokenSize then [] else dropCR line :: scanTokens rest

/-- The body of the loop of `handleConnection` over the tokens: the records
for which `go processLog(rawLog)` is run, in the order of the `go` statements.
The parameter `decode` is `json.Unmarshal` into a fresh `RawLog`, with no
value when it returns an error (the `continue` branch). -/
def connectionLoop (decode : String → Option RawLog) : List String → List RawLog
  | [] => []
  | token :: rest =>
    match decode token with
    | none => connectionLoop decode rest
    | some rawLog => rawLog :: connectionLoop decode rest

/-- The function `handleConnection`: scan, decode, hand to `processLog`. -/
def handleConnection (decode : String → Option RawLog) (lines : List String) : List RawLog :=
  connectionLoop decode (scanTokens lines)

/-- The line `json.Marshal` writes for `clientEvent`. -/
def clientLine : String :=
  "\x7b\"timestamp\":\"2025-08-06T07:47:31Z\",\"hostname\":\"aiops9242\",\"event.source.type\":\"linux\",\"event.category\":\"login.audit\",\"message\":\"\\u003c86\\u003e aiops9242 sudo: pam_unix(sudo:session): session opened for user root(uid=0) by motadata(uid=1000)\"\x7d"

/-- A stand-in for `json.Unmarshal`, to evaluate examples: it decodes
`clientLine` to `clientEvent`, as Go does, and is given no other line it
accepts. -/
def sampleUnmarshal (line : String) : Option RawLog :=
  if line = clientLine then some clientEvent else none

/-- A line of `MaxScanTokenSize` bytes. -/
def longLine : String := String.mk (List.replicate MaxScanTokenSize 'a')

/-- What `forwardToLogServer` writes to the log. -/
inductive ForwardLog where
  | failedToSend
  | rejected
  | nothing
  deriving DecidableEq, Repr

/-- The function `forwardToLogServer` after `json.Marshal`: `post` is
`http.Post` to the ingest endpoint, with the status code of the response or no
value for a transport error. -/
def forwardToLogServer (post : String → Option Nat) (jsonData : String) : ForwardLog :=
  match post jsonData with
  | none => .failedToSend
  | some statusCode => if statusCode ≠ LogServer.StatusAccepted then .rejected else .nothing

/-- The ingest endpoint as the collector sees it: the status `ingestLogHandler`
replies for a body. -/
def ingestEndpoint (decode : String → Option LogServer.LogEntry) (cm : LogServer.CaseMapping)
    (s : LogServer.InMemoryStore) (body : String) : Option Nat :=
  some (LogServer.ingestLogHandler decode cm s body).2

end LogCollector

namespace LogServer

/-! # Theorems -/

/-! ## Counter maps -/

theorem mapSum_mapIncr (m : CountMap) (k : String) : mapSum (mapIncr m k) = mapSum m + 1 := by
  induction m with
  | nil => simp [mapIncr, mapSum]
  | cons p rest ih =>
    obtain ⟨k', n⟩ := p
    by_cases h : k' = k
    · simp [mapIncr, mapSum, h]; omega
    · simp only [mapSum] at ih
      simp [mapIncr, mapSum, h, ih]; omega

theorem mapGet_mapIncr (m : CountMap) (k c : String) :
    mapGet (mapIncr m k) c = if c = k then some ((mapGet m k).getD 0 + 1) else mapGet m c := by
  induction m with
  | nil =>
    by_cases h : c = k
    · simp [mapIncr, mapGet, h]
    · have h' : ¬ k = c := fun e => h e.symm
      simp [mapIncr, mapGet, h, h']
  | cons p rest ih =>
    obtain ⟨k', n⟩ := p
    by_cases hk : k' = k
    · subst hk
      by_cases hc : c = k'
      · subst hc; simp [mapIncr, mapGet]
      · have hc' : ¬ k' = c := fun e => hc e.symm
        simp [mapIncr, mapGet, hc, hc']
    · by_cases hc : k' = c
      · subst hc; simp [mapIncr, mapGet, hk]
      · simp [mapIncr, mapGet, hk, hc, ih]

theorem keys_mapIncr (m : CountMap) (k : String) (x : String) :
    x ∈ (mapIncr m k).map Prod.fst ↔ x = k ∨ x ∈ m.map Prod.fst := by
  induction m with
  | nil => simp [mapIncr]
  | cons p rest ih =>
    obtain ⟨k', n⟩ := p
    by_cases hk : k' = k
    · subst hk; simp [mapIncr]
    · simp only [mapIncr, hk, if_false, List.map_cons, List.mem_cons, ih]
      tauto

theorem distinctKeys_mapIncr (m : CountMap) (k : String) (h : DistinctKeys m) :
    DistinctKeys (mapIncr m k) := by
  induction m with
  | nil => simp [mapIncr, DistinctKeys]
  | cons p rest ih =>
    obtain ⟨k', n⟩ := p
    unfold DistinctKeys at h ih ⊢
    rw [List.map_cons, List.nodup_cons] at h
    by_cases hk : k' = k
    · subst hk
      simp only [mapIncr, if_true, List.map_cons, List.nodup_cons]
      exact h
    · simp only [mapIncr, hk, if_false, List.map_cons, List.nodup_cons]
      refine ⟨?_, ih h.2⟩
      intro hmem
      rcases (keys_mapIncr rest k k').1 hmem with e | e
      · exact hk e
      · exact h.1 e

theorem countWhere_append_singleton (p : LogEntry → Bool) (logs : List LogEntry) (e : LogEntry) :
    countWhere p (logs ++ [e]) = countWhere p logs + if p e then 1 else 0 := by
  unfold countWhere
  by_cases h : p e <;> simp [List.filter_append, List.filter_cons, h]

/-! ## Reachable store states -/

/-- Induction over the calls that built a store. -/
theorem runOps_induction (cm : CaseMapping) (P : InMemoryStore → Prop)
    (hnew : P NewInMemoryStore)
    (hsave : ∀ s e, P s → P (Save cm s e))
    (hclear : ∀ s, P s → P (Clear s)) (ops : List StoreOp) : P (runOps cm ops) := by
  unfold runOps
  generalize NewInMemoryStore = s0 at hnew
  induction ops generalizing s0 with
  | nil => exact hnew
  | cons op rest ih =>
    rw [List.foldl_cons]
    apply ih
    cases op with
    | save e => exact hsave s0 e hnew
    | clear => exact hclear s0 hnew

theorem saveAll_logs (cm : CaseMapping) (s : InMemoryStore) (entries : List LogEntry) :
    (saveAll cm s entries).logs = s.logs ++ entries := by
  unfold saveAll
  induction entries generalizing s with
  | nil => simp
  | cons e rest ih => rw [List.foldl_cons, ih]; simp [Save]

theorem saveAll_eq_runOps (cm : CaseMapping) (entries : List LogEntry) :
    saveAll cm NewInMemoryStore entries = runOps cm (entries.map StoreOp.save) := by
  unfold saveAll runOps
  generalize NewInMemoryStore = s0
  induction entries generalizing s0 with
  | nil => rfl
  | cons e rest ih => simp only [List.map_cons, List.foldl_cons, applyOp, ih]

theorem consistent_runOps (cm : CaseMapping) (ops : List StoreOp) :
    Consistent (runOps cm ops) := by
  apply runOps_induction cm Consistent
  · simp [Consistent, NewInMemoryStore, mapSum]
  · intro s e h
    obtain ⟨h1, h2, h3⟩ := h
    simp [Consistent, Save, mapSum_mapIncr, h1, h2, h3]
  · intro s _
    simp [Consistent, Clear, mapSum]

theorem expectedCount_getD (n : Nat) : (expectedCount n).getD 0 = n := by
  unfold expectedCount
  by_cases h : n = 0 <;> simp [h]

theorem mapGet_mapIncr_expected (m : CountMap) (key : LogEntry → String)
    (logs : List LogEntry) (e : LogEntry)
    (h : ∀ c, mapGet m c = expectedCount (countWhere (fun x => decide (key x = c)) logs))
    (c : String) :
    mapGet (mapIncr m (key e)) c =
      expectedCount (countWhere (fun x => decide (key x = c)) (logs ++ [e])) := by
  rw [mapGet_mapIncr, countWhere_append_singleton]
  by_cases hc : c = key e
  · subst hc
    rw [if_pos rfl, h, expectedCount_getD]
    simp [expectedCount]
  · have hc' : ¬ key e = c := fun x => hc x.symm
    rw [if_neg hc, h]
    simp [hc']

theorem countsExact_runOps (cm : CaseMapping) (ops : List StoreOp) :
    CountsExact cm (runOps cm ops) := by
  apply runOps_induction cm (CountsExact cm)
  · simp [CountsExact, NewInMemoryStore, DistinctKeys, mapGet, countWhere, expectedCount]
  · intro s e h
    obtain ⟨h1, h2, h3, h4⟩ := h
    refine ⟨distinctKeys_mapIncr _ _ h1, distinctKeys_mapIncr _ _ h2, ?_, ?_⟩
    · intro c
      exact mapGet_mapIncr_expected s.categoryCount (fun x => x.EventCategory) s.logs e h3 c
    · intro k
      exact mapGet_mapIncr_expected s.severityCount (fun x => cm.toUpper x.Severity)
        s.logs e h4 k
  · intro s _
    simp [CountsExact, Clear, DistinctKeys, mapGet, countWhere, expectedCount]

/-- C1: in every store reachable from `NewInMemoryStore` by `Save` and `Clear`
calls, `totalLogs` is the length of `logs` and is the sum of the values of
`categoryCount` and of `severityCount` (each a map, its keys distinct); after saving `N` entries into a fresh
store `Metrics` reports `total_logs = N` and both maps sum to `N`. -/
theorem C1_counters_consistent (cm : CaseMapping) :
    (∀ ops : List StoreOp,
      (runOps cm ops).totalLogs = (runOps cm ops).logs.length ∧
      mapSum (runOps cm ops).categoryCount = (runOps cm ops).totalLogs ∧
      mapSum (runOps cm ops).severityCount = (runOps cm ops).totalLogs ∧
      DistinctKeys (runOps cm ops).categoryCount ∧
      DistinctKeys (runOps cm ops).severityCount) ∧
    (∀ entries : List LogEntry,
      (Metrics (saveAll cm NewInMemoryStore entries)).total_logs = entries.length ∧
      mapSum (Metrics (saveAll cm NewInMemoryStore entries)).by_category = entries.length ∧
      mapSum (Metrics (saveAll cm NewInMemoryStore entries)).by_severity = entries.length) := by
  constructor
  · intro ops
    obtain ⟨h1, h2, h3⟩ := consistent_runOps cm ops
    obtain ⟨d1, d2, _⟩ := countsExact_runOps cm ops
    exact ⟨h1, by rw [h2, h1], by rw [h3, h1], d1, d2⟩
  · intro entries
    have hl : (saveAll cm NewInMemoryStore entries).logs = entries := by
      rw [saveAll_logs]; simp [NewInMemoryStore]
    have h := consistent_runOps cm (entries.map StoreOp.save)
    rw [← saveAll_eq_runOps] at h
    obtain ⟨h1, h2, h3⟩ := h
    rw [hl] at h1 h2 h3
    exact ⟨h1, h2, h3⟩

/-- C2: in every store reachable from `NewInMemoryStore` by `Save` and `Clear`
calls, `Metrics` returns `total_logs = len(logs)`, a `by_category` map that
binds each category to the number of stored entries of that category, and a
`by_severity` map that binds each key to the number of stored entries whose
upper-cased severity is that key; a key carried by no entry is absent.  After
the calls of `TestMetricsHandler` the result is `total_logs = 2`,
`by_category = {login.audit: 2}`, `by_severity = {INFO: 1, ERROR: 1}`. -/
theorem C2_metrics_exact_counts (cm : CaseMapping) :
    (∀ ops : List StoreOp,
      (Metrics (runOps cm ops)).total_logs = (runOps cm ops).logs.length ∧
      DistinctKeys (Metrics (runOps cm ops)).by_category ∧
      DistinctKeys (Metrics (runOps cm ops)).by_severity ∧
      (∀ c : String, mapGet (Metrics (runOps cm ops)).by_category c =
        if countWhere (fun e => decide (e.EventCategory = c)) (runOps cm ops).logs = 0 then none
        else some (countWhere (fun e => decide (e.EventCategory = c)) (runOps cm ops).logs)) ∧
      (∀ k : String, mapGet (Metrics (runOps cm ops)).by_severity k =
        if countWhere (fun e => decide (cm.toUpper e.Severity = k)) (runOps cm ops).logs = 0
        then none
        else some (countWhere (fun e => decide (cm.toUpper e.Severity = k))
          (runOps cm ops).logs))) ∧
    Metrics (runOps asciiCase [StoreOp.clear, StoreOp.save testAdmin,
        StoreOp.save testRootMetrics]) =
      { total_logs := 2, by_category := [("login.audit", 2)],
        by_severity := [("INFO", 1), ("ERROR", 1)] } := by
  refine ⟨fun ops => ?_, by decide⟩
  obtain ⟨h1, h2, h3, h4⟩ := countsExact_runOps cm ops
  exact ⟨(consistent_runOps cm ops).1, h1, h2, h3, h4⟩

/-! ## The filter of `Query` -/

theorem matchStep_eq (cm : CaseMapping) (log : LogEntry) (acc : Bool) (kv : String × String) :
    matchStep cm log acc kv = (acc && satisfies cm log kv) := by
  obtain ⟨key, val⟩ := kv
  unfold matchStep satisfies eqIgnoreCase boolValue
  by_cases h1 : key = "service" ∨ key = "event.category"
  · by_cases h : cm.toLower log.EventCategory = cm.toLower val <;> simp [h1, h]
  · by_cases h2 : key = "level" ∨ key = "severity"
    · by_cases h : cm.toLower log.Severity = cm.toLower val <;> simp [h1, h2, h]
    · by_cases h3 : key = "username"
      · by_cases h : cm.toLower log.Username = cm.toLower val <;> simp [h1, h2, h3, h]
      · by_cases h4 : key = "is.blacklisted"
        · by_cases ht : cm.toLower val = "true"
          · cases hb : log.IsBlacklisted <;> simp [h1, h2, h3, h4, ht, hb]
          · by_cases hf : cm.toLower val = "false"
            · cases hb : log.IsBlacklisted <;> simp [h1, h2, h3, h4, ht, hf, hb]
            · simp [h1, h2, h3, h4, ht, hf]
        · simp [h1, h2, h3, h4]

theorem foldl_matchStep (cm : CaseMapping) (log : LogEntry) (acc : Bool) (params : Params) :
    params.foldl (matchStep cm log) acc = (acc && params.all (satisfies cm log)) := by
  induction params generalizing acc with
  | nil => simp
  | cons kv rest ih =>
    rw [List.foldl_cons, ih, matchStep_eq, List.all_cons, Bool.and_assoc]

theorem matchLog_eq_all (cm : CaseMapping) (log : LogEntry) (params : Params) :
    matchLog cm log params = params.all (satisfies cm log) := by
  unfold matchLog
  rw [foldl_matchStep, Bool.true_and]

theorem queryLoop_eq (cm : CaseMapping) (params : Params) (filtered logs : List LogEntry) :
    queryLoop cm params filtered logs =
      filtered ++ logs.filter (fun log => matchLog cm log params) := by
  induction logs generalizing filtered with
  | nil => simp [queryLoop]
  | cons log rest ih =>
    by_cases h : matchLog cm log params = true
    · simp [queryLoop, h, ih]
    · simp [queryLoop, h, ih]

theorem Query_eq_filter (cm : CaseMapping) (s : InMemoryStore) (params : Params) :
    Query cm s params = s.logs.filter (fun log => params.all (satisfies cm log)) := by
  unfold Query
  rw [queryLoop_eq, List.nil_append]
  congr 1
  funext log
  exact matchLog_eq_all cm log params

theorem all_perm {α : Type} (p : α → Bool) {l₁ l₂ : List α} (h : l₁.Perm l₂) :
    l₁.all p = l₂.all p := by
  rw [Bool.eq_iff_iff, List.all_eq_true, List.all_eq_true]
  exact ⟨fun H x hx => H x (h.mem_iff.2 hx), fun H x hx => H x (h.mem_iff.1 hx)⟩

/-- C3 (as amended): `Query` returns the stored entries, in stored order and
with multiplicity, that satisfy every supplied predicate, whatever the order in
which the map is visited: the category, severity and username keys compare
ignoring letter case, and `is.blacklisted` with a value that is `true` or
`false` in any letter case requires the flag to equal it; any other value of
`is.blacklisted` places no constraint.  On the two records of
`TestQueryHandler_Filtering` the query `username=root, is.blacklisted=true`
returns the second record alone. -/
theorem C3_query_filters_by_all_predicates (cm : CaseMapping) (s : InMemoryStore)
    (params : Params) :
    Query cm s params = s.logs.filter (fun log => params.all (satisfies cm log)) ∧
    (∀ visited : Params, params.Perm visited → Query cm s visited = Query cm s params) ∧
    Query asciiCase (runOps asciiCase [StoreOp.clear, StoreOp.save testAdmin,
        StoreOp.save testRoot]) [("username", "root"), ("is.blacklisted", "true")] =
      [testRoot] := by
  refine ⟨Query_eq_filter cm s params, fun visited hp => ?_, by decide⟩
  rw [Query_eq_filter, Query_eq_filter]
  congr 1
  funext log
  exact (all_perm _ hp).symm

/-- C3 fails as stated: with the value `yes` for `is.blacklisted`, which equals
no flag, `Query` returns the stored entry while no entry satisfies the
predicate as the specification words it. -/
theorem C3_nonboolean_flag_value_matches_all :
    Query asciiCase (Save asciiCase NewInMemoryStore testAdmin) [("is.blacklisted", "yes")] =
      [testAdmin] ∧
    statedQuery asciiCase (Save asciiCase NewInMemoryStore testAdmin)
      [("is.blacklisted", "yes")] = [] := by
  decide

/-- C3, at a concrete input: the two visiting orders of the map of
`TestQueryHandler_Filtering` give the same result. -/
theorem C3_query_filters_by_all_predicates_witness :
    List.Perm [("username", "root"), ("is.blacklisted", "true")]
      [("is.blacklisted", "true"), ("username", "root")] ∧
    Query asciiCase (saveAll asciiCase NewInMemoryStore [testAdmin, testRoot])
      [("is.blacklisted", "true"), ("username", "root")] =
    Query asciiCase (saveAll asciiCase NewInMemoryStore [testAdmin, testRoot])
      [("username", "root"), ("is.blacklisted", "true")] :=
  ⟨List.Perm.swap _ _ _,
   (C3_query_filters_by_all_predicates asciiCase
      (saveAll asciiCase NewInMemoryStore [testAdmin, testRoot])
      [("username", "root"), ("is.blacklisted", "true")]).2.1 _ (List.Perm.swap _ _ _)⟩

/-- C4: with an empty predicate map `Query` returns the whole stored sequence
in stored order, and that sequence is the entries saved since the last
`Clear` (or since the store was made), in the order of the `Save` calls. -/
theorem C4_empty_query_returns_all (cm : CaseMapping) :
    (∀ s : InMemoryStore, Query cm s [] = s.logs) ∧
    (∀ (s : InMemoryStore) (entries : List LogEntry),
      Query cm (saveAll cm (Clear s) entries) [] = entries) ∧
    (∀ entries : List LogEntry, Query cm (saveAll cm NewInMemoryStore entries) [] = entries) := by
  have h : ∀ s : InMemoryStore, Query cm s [] = s.logs := by
    intro s
    rw [Query_eq_filter]
    simp
  refine ⟨h, fun s entries => ?_, fun entries => ?_⟩
  · rw [h, saveAll_logs]; simp [Clear]
  · rw [h, saveAll_logs]; simp [NewInMemoryStore]

theorem satisfies_unrecognized (cm : CaseMapping) (log : LogEntry) (k v : String)
    (hk : k ∉ recognizedKeys) : satisfies cm log (k, v) = true := by
  simp only [recognizedKeys, List.mem_cons, List.mem_singleton, List.not_mem_nil, or_false,
    not_or] at hk
  obtain ⟨h1, h2, h3, h4, h5, h6⟩ := hk
  simp [satisfies, h1, h2, h3, h4, h5, h6]

theorem all_mapSet_unrecognized (cm : CaseMapping) (log : LogEntry) (params : Params)
    (k v : String) (hk : k ∉ recognizedKeys) :
    (mapSet params k v).all (satisfies cm log) = params.all (satisfies cm log) := by
  induction params with
  | nil => simp [mapSet, satisfies_unrecognized cm log k v hk]
  | cons kv rest ih =>
    obtain ⟨k', v'⟩ := kv
    by_cases h : k' = k
    · subst h
      simp [mapSet, satisfies_unrecognized cm log k' v hk, satisfies_unrecognized cm log k' v' hk]
    · simp [mapSet, h, ih]

/-- C5: a key outside `service`, `event.category`, `level`, `severity`,
`username` and `is.blacklisted`, set to any value in the predicate map, leaves
the result of `Query` as it was. -/
theorem C5_unrecognized_key_ignored (cm : CaseMapping) (s : InMemoryStore) (params : Params)
    (k v : String) (hk : k ∉ recognizedKeys) :
    Query cm s (mapSet params k v) = Query cm s params := by
  rw [Query_eq_filter, Query_eq_filter]
  congr 1
  funext log
  exact all_mapSet_unrecognized cm log params k v hk

/-- C5, at a concrete input: adding `sort=timestamp` to `username=root`. -/
theorem C5_unrecognized_key_ignored_witness :
    "sort" ∉ recognizedKeys ∧
    Query asciiCase (saveAll asciiCase NewInMemoryStore [testAdmin, testRoot])
      (mapSet [("username", "root")] "sort" "timestamp") =
    Query asciiCase (saveAll asciiCase NewInMemoryStore [testAdmin, testRoot])
      [("username", "root")] :=
  ⟨by decide, C5_unrecognized_key_ignored asciiCase _ _ "sort" "timestamp" (by decide)⟩

/-- C6: `Query` with the single predicate `is.blacklisted = v` returns, in
stored order, the entries whose flag is set when `v` is `true` in any letter
case, the entries whose flag is not set when `v` is `false` in any letter
case, and otherwise what `Query` returns without the key. -/
theorem C6_blacklisted_predicate (cm : CaseMapping) (s : InMemoryStore) (v : String) :
    Query cm s [("is.blacklisted", v)] =
      if cm.toLower v = "true" then s.logs.filter (fun log => log.IsBlacklisted)
      else if cm.toLower v = "false" then s.logs.filter (fun log => !log.IsBlacklisted)
      else Query cm s [] := by
  rw [Query_eq_filter, Query_eq_filter]
  by_cases ht : cm.toLower v = "true"
  · rw [if_pos ht]
    congr 1
    funext log
    simp [satisfies, boolValue, ht]
  · rw [if_neg ht]
    by_cases hf : cm.toLower v = "false"
    · rw [if_pos hf]
      congr 1
      funext log
      simp [satisfies, boolValue, ht, hf]
    · rw [if_neg hf]
      congr 1
      funext log
      simp [satisfies, boolValue, ht, hf]

/-- C7: after `Clear`, whatever the store held, `Query` returns the empty list
for every predicate map, `Metrics` reports zero logs and two empty maps, and
saving into the cleared store gives the store that saving into a fresh one
gives. -/
theorem C7_clear_resets (cm : CaseMapping) (s : InMemoryStore) :
    (∀ params : Params, Query cm (Clear s) params = []) ∧
    Metrics (Clear s) = { total_logs := 0, by_category := [], by_severity := [] } ∧
    Clear s = NewInMemoryStore ∧
    (∀ entries : List LogEntry,
      saveAll cm (Clear s) entries = saveAll cm NewInMemoryStore entries) ∧
    (∀ e : LogEntry, Save cm (Clear s) e = Save cm NewInMemoryStore e) := by
  refine ⟨fun params => ?_, rfl, rfl, fun _ => rfl, fun _ => rfl⟩
  rw [Query_eq_filter]
  rfl

/-! ## Sort and limit -/

theorem strLess_eq_false_iff (a b : String) : strLess a b = false ↔ b ≤ a := by
  unfold strLess
  rw [decide_eq_false_iff_not, ← String.toList, ← String.toList, ← String.lt_iff_toList_lt,
    not_lt]

theorem strLess_eq_true_iff (a b : String) : strLess a b = true ↔ a < b := by
  unfold strLess
  rw [decide_eq_true_iff, ← String.toList, ← String.toList, ← String.lt_iff_toList_lt]

theorem timestampLess_strictWeak : StrictWeakOrdering timestampLess := by
  refine ⟨fun a => ?_, fun a b c hab hbc => ?_, fun a b c hab hbc => ?_⟩
  · exact (strLess_eq_false_iff _ _).2 (le_refl _)
  · exact (strLess_eq_true_iff _ _).2
      (lt_trans ((strLess_eq_true_iff _ _).1 hab) ((strLess_eq_true_iff _ _).1 hbc))
  · exact (strLess_eq_false_iff _ _).2
      (le_trans ((strLess_eq_false_iff _ _).1 hbc) ((strLess_eq_false_iff _ _).1 hab))

theorem sortSlice_timestamps (srt : SliceSorter) (x : List LogEntry) :
    (srt.sortSlice x timestampLess).Pairwise (fun a b => a.Timestamp ≤ b.Timestamp) := by
  refine (srt.sorted x timestampLess timestampLess_strictWeak).imp ?_
  intro a b h
  exact (strLess_eq_false_iff _ _).1 h

/-- C8: when the lower-cased `sort` parameter is `timestamp`, the list the
handler holds before the limit pass is a permutation of `Query(params)` whose
timestamps are non-decreasing in the lexicographic order of strings; when the
parameter has another value, or is absent (it then reads as the empty string,
which Go lower-cases to itself), the list is `Query(params)` in its stored
order. -/
theorem C8_sort_by_timestamp (srt : SliceSorter) (cm : CaseMapping) (s : InMemoryStore)
    (params : Params) :
    (cm.toLower ((mapGet params "sort").getD "") = "timestamp" →
      (sortStage srt cm params (Query cm s params)).Perm (Query cm s params) ∧
      (sortStage srt cm params (Query cm s params)).Pairwise
        (fun a b => a.Timestamp ≤ b.Timestamp)) ∧
    (cm.toLower ((mapGet params "sort").getD "") ≠ "timestamp" →
      sortStage srt cm params (Query cm s params) = Query cm s params) ∧
    (mapGet params "sort" = none → cm.toLower "" = "" →
      sortStage srt cm params (Query cm s params) = Query cm s params) ∧
    handlerResult srt cm s params =
      limitStage params (sortStage srt cm params (Query cm s params)) := by
  refine ⟨fun h => ?_, fun h => ?_, fun hnone hempty => ?_, rfl⟩
  · unfold sortStage
    rw [if_pos h]
    exact ⟨srt.perm _ _, sortSlice_timestamps srt _⟩
  · unfold sortStage
    rw [if_neg h]
  · unfold sortStage
    rw [hnone, Option.getD_none, hempty, if_neg (by decide)]

/-- C8, at a concrete input: two entries stored latest first, once with
`sort=TIMESTAMP`, once with `sort=hostname`, once with no `sort` key. -/
theorem C8_sort_by_timestamp_witness :
    sortStage insertionSorter asciiCase [("sort", "TIMESTAMP")]
        (Query asciiCase (saveAll asciiCase NewInMemoryStore [testRoot, testAdmin])
          [("sort", "TIMESTAMP")]) = [testAdmin, testRoot] ∧
    List.Pairwise (fun a b : LogEntry => a.Timestamp ≤ b.Timestamp)
      (sortStage insertionSorter asciiCase [("sort", "TIMESTAMP")]
        (Query asciiCase (saveAll asciiCase NewInMemoryStore [testRoot, testAdmin])
          [("sort", "TIMESTAMP")])) ∧
    sortStage insertionSorter asciiCase [("sort", "hostname")]
        (Query asciiCase (saveAll asciiCase NewInMemoryStore [testRoot, testAdmin])
          [("sort", "hostname")]) = [testRoot, testAdmin] ∧
    sortStage insertionSorter asciiCase []
        (Query asciiCase (saveAll asciiCase NewInMemoryStore [testRoot, testAdmin]) []) =
      [testRoot, testAdmin] :=
  ⟨by decide,
   ((C8_sort_by_timestamp insertionSorter asciiCase
      (saveAll asciiCase NewInMemoryStore [testRoot, testAdmin])
      [("sort", "TIMESTAMP")]).1 (by decide)).2,
   ((C8_sort_by_timestamp insertionSorter asciiCase
      (saveAll asciiCase NewInMemoryStore [testRoot, testAdmin])
      [("sort", "hostname")]).2.1 (by decide)).trans (by decide),
   ((C8_sort_by_timestamp insertionSorter asciiCase
      (saveAll asciiCase NewInMemoryStore [testRoot, testAdmin])
      []).2.2.1 (by decide) (by decide)).trans (by decide)⟩

theorem take_min_length (L : List LogEntry) (n : Nat) : L.take (min n L.length) = L.take n := by
  by_cases h : n ≤ L.length
  · rw [Nat.min_eq_left h]
  · have h' : L.length ≤ n := by omega
    rw [Nat.min_eq_right h', List.take_length, List.take_of_length_le h']

theorem limitStage_some (params : Params) (L : List LogEntry) (str : String) (N : Int)
    (hget : mapGet params "limit" = some str) (hN : Atoi str = some N) :
    limitStage params L = if 0 < N then L.take (min N.toNat L.length) else L := by
  unfold limitStage
  simp only [hget, hN]
  by_cases hpos : 0 < N
  · by_cases hlt : N < (L.length : Int)
    · rw [if_pos ⟨hpos, hlt⟩, if_pos hpos, take_min_length]
    · have hlen : L.length ≤ N.toNat := by omega
      rw [if_neg (fun h => hlt h.2), if_pos hpos, take_min_length, List.take_of_length_le hlen]
  · rw [if_neg (fun h => hpos h.1), if_neg hpos]

theorem Atoi_of_parseSigned (str : String) (N : Int) (h : parseSigned str = some N) :
    Atoi str = if -(2 : Int) ^ 63 ≤ N ∧ N < (2 : Int) ^ 63 then some N else none := by
  unfold Atoi
  rw [h]

/-- C9: for every list `L` reaching the limit pass: a `limit` parameter that
is a positive integer `N` gives the first `min(N, len L)` entries of `L` in
the order of `L`; an absent `limit`, one that is no integer, one that is zero
or negative, and one with `N >= len L` give `L` itself.  A numeral too large
for `int` is rejected by `Atoi` and gives `L`, which is again the first
`min(N, len L)` entries since a slice is shorter than `2^63`.  The pass runs
on the output of the sort pass. -/
theorem C9_limit_truncates (params : Params) (L : List LogEntry) :
    (mapGet params "limit" = none → limitStage params L = L) ∧
    (∀ str, mapGet params "limit" = some str → Atoi str = none → limitStage params L = L) ∧
    (∀ str N, mapGet params "limit" = some str → Atoi str = some N → N ≤ 0 →
      limitStage params L = L) ∧
    (∀ str N, mapGet params "limit" = some str → Atoi str = some N → 0 < N →
      limitStage params L = L.take (min N.toNat L.length)) ∧
    (∀ str N, mapGet params "limit" = some str → Atoi str = some N → (L.length : Int) ≤ N →
      limitStage params L = L) ∧
    (∀ str N, mapGet params "limit" = some str → parseSigned str = some N → 0 < N →
      L.length < 2 ^ 63 → limitStage params L = L.take (min N.toNat L.length)) ∧
    (∀ (srt : SliceSorter) (cm : CaseMapping) (s : InMemoryStore) (str : String) (N : Int),
      mapGet params "limit" = some str → Atoi str = some N → 0 < N →
      handlerResult srt cm s params =
        (sortStage srt cm params (Query cm s params)).take
          (min N.toNat (sortStage srt cm params (Query cm s params)).length)) := by
  refine ⟨fun h => ?_, fun str h hN => ?_, fun str N h hN hle => ?_, fun str N h hN hpos => ?_,
    fun str N h hN hge => ?_, fun str N h hN hpos hlen => ?_,
    fun srt cm s str N h hN hpos => ?_⟩
  · unfold limitStage
    rw [h]
  · unfold limitStage
    simp only [h, hN]
  · rw [limitStage_some params L str N h hN, if_neg (by omega)]
  · rw [limitStage_some params L str N h hN, if_pos hpos]
  · rw [limitStage_some params L str N h hN]
    by_cases hpos : 0 < N
    · have hlen : L.length ≤ N.toNat := by omega
      rw [if_pos hpos, take_min_length, List.take_of_length_le hlen]
    · rw [if_neg hpos]
  · by_cases hr : N < (2 : Int) ^ 63
    · have hA : Atoi str = some N := by
        rw [Atoi_of_parseSigned str N hN, if_pos ⟨by omega, hr⟩]
      rw [limitStage_some params L str N h hA, if_pos hpos]
    · have hA : Atoi str = none := by
        rw [Atoi_of_parseSigned str N hN, if_neg (fun hc => hr hc.2)]
      have hlen' : L.length ≤ N.toNat := by omega
      unfold limitStage
      simp only [h, hA]
      rw [take_min_length, List.take_of_length_le hlen']
  · unfold handlerResult
    rw [limitStage_some params _ str N h hN, if_pos hpos]

/-- C9, at concrete inputs: the two test entries under `limit=1`, no limit,
`limit=abc`, `limit=0`, `limit=2`, a numeral beyond `int`, and `limit=1`
together with `sort=timestamp`. -/
theorem C9_limit_truncates_witness :
    limitStage [] [testRoot, testAdmin] = [testRoot, testAdmin] ∧
    limitStage [("limit", "abc")] [testRoot, testAdmin] = [testRoot, testAdmin] ∧
    limitStage [("limit", "0")] [testRoot, testAdmin] = [testRoot, testAdmin] ∧
    limitStage [("limit", "1")] [testRoot, testAdmin] = [testRoot] ∧
    limitStage [("limit", "2")] [testRoot, testAdmin] = [testRoot, testAdmin] ∧
    limitStage [("limit", "9223372036854775808")] [testRoot, testAdmin] =
      [testRoot, testAdmin] ∧
    handlerResult insertionSorter asciiCase
      (saveAll asciiCase NewInMemoryStore [testRoot, testAdmin])
      [("sort", "timestamp"), ("limit", "1")] = [testAdmin] :=
  ⟨(C9_limit_truncates [] [testRoot, testAdmin]).1 (by decide),
   (C9_limit_truncates [("limit", "abc")] [testRoot, testAdmin]).2.1 "abc" (by decide)
     (by decide),
   (C9_limit_truncates [("limit", "0")] [testRoot, testAdmin]).2.2.1 "0" 0 (by decide)
     (by decide) (by decide),
   ((C9_limit_truncates [("limit", "1")] [testRoot, testAdmin]).2.2.2.1 "1" 1 (by decide)
     (by decide) (by decide)).trans (by decide),
   (C9_limit_truncates [("limit", "2")] [testRoot, testAdmin]).2.2.2.2.1 "2" 2 (by decide)
     (by decide) (by decide),
   ((C9_limit_truncates [("limit", "9223372036854775808")]
     [testRoot, testAdmin]).2.2.2.2.2.1 "9223372036854775808" 9223372036854775808 (by decide)
     (by decide) (by decide) (by decide)).trans (by decide),
   ((C9_limit_truncates [("sort", "timestamp"), ("limit", "1")]
     [testRoot, testAdmin]).2.2.2.2.2.2 insertionSorter asciiCase
     (saveAll asciiCase NewInMemoryStore [testRoot, testAdmin]) "1" 1 (by decide) (by decide)
     (by decide)).trans (by decide)⟩

/-! ## The ingest handler -/

theorem Query_username_singleton (cm : CaseMapping) (e : LogEntry) :
    Query cm (Save cm NewInMemoryStore e) [("username", e.Username)] = [e] := by
  rw [Query_eq_filter]
  simp [Save, NewInMemoryStore, satisfies, eqIgnoreCase]

set_option maxRecDepth 100000 in
/-- C14: for every body and store, `ingestLogHandler` either finds that the
body does not decode, replies 400 and leaves the store as it was, or decodes
an entry `e`, leaves the store that `Save(e)` leaves and replies 200; after
such an ingest into a cleared store, `Query` with `username = e.Username`
returns `[e]`.  The body of `TestIngestLogHandler` is evaluated. -/
theorem C14_ingest_handler (decode : String → Option LogEntry) (cm : CaseMapping)
    (s : InMemoryStore) (body : String) :
    ((decode body = none ∧ ingestLogHandler decode cm s body = (s, 400)) ∨
      (∃ e, decode body = some e ∧ ingestLogHandler decode cm s body = (Save cm s e, 200))) ∧
    (∀ e, decode body = some e →
      Query cm (ingestLogHandler decode cm (Clear s) body).1 [("username", e.Username)] = [e]) ∧
    ingestLogHandler sampleDecode asciiCase (Clear s) testIngestBody =
      (Save asciiCase NewInMemoryStore testIngestEntry, 200) := by
  refine ⟨?_, fun e he => ?_, ?_⟩
  rotate_right
  · show ingestLogHandler sampleDecode asciiCase NewInMemoryStore testIngestBody = _
    decide
  · unfold ingestLogHandler
    cases h : decode body with
    | none => exact Or.inl ⟨rfl, rfl⟩
    | some e => exact Or.inr ⟨e, rfl, rfl⟩
  · unfold ingestLogHandler
    rw [he]
    exact Query_username_singleton cm e

set_option maxRecDepth 100000 in
/-- C14, at a concrete input: the body of `TestIngestLogHandler` posted to a
store that held another entry before it was cleared. -/
theorem C14_ingest_handler_witness :
    sampleDecode testIngestBody = some testIngestEntry ∧
    Query asciiCase
      (ingestLogHandler sampleDecode asciiCase
        (Clear (Save asciiCase NewInMemoryStore testAdmin)) testIngestBody).1
      [("username", "root")] = [testIngestEntry] :=
  ⟨by decide,
   (C14_ingest_handler sampleDecode asciiCase (Save asciiCase NewInMemoryStore testAdmin)
      testIngestBody).2.1 testIngestEntry (by decide)⟩

/-! ## Relations between queries -/

theorem Query_single (cm : CaseMapping) (s : InMemoryStore) (kv : String × String) :
    Query cm s [kv] = s.logs.filter (satisfies cm · kv) := by
  rw [Query_eq_filter]
  congr 1
  funext log
  simp

theorem Query_pair (cm : CaseMapping) (s : InMemoryStore) (kv1 kv2 : String × String) :
    Query cm s [kv1, kv2] =
      (Query cm s [kv1]).filter (fun e => decide (e ∈ Query cm s [kv2])) := by
  rw [Query_eq_filter, Query_single, Query_single, List.filter_filter]
  apply List.filter_congr
  intro x hx
  simp [List.mem_filter, hx, Bool.and_comm]

theorem Query_pair_eq_nil (cm : CaseMapping) (s : InMemoryStore) (kv1 kv2 : String × String)
    (h : ∀ log, ¬ (satisfies cm log kv1 = true ∧ satisfies cm log kv2 = true)) :
    Query cm s [kv1, kv2] = [] := by
  rw [Query_eq_filter, List.filter_eq_nil_iff]
  intro log _ hall
  simp only [List.all_cons, List.all_nil, Bool.and_true, Bool.and_eq_true] at hall
  exact h log hall

/-- C16: `service` and `event.category` are synonyms in `Query`, and so are
`level` and `severity`: either key of a pair alone gives the same result, and
both keys of a pair together give the entries common to the two single-key
results, which is no entry when the two values differ other than by letter
case. -/
theorem C16_synonym_keys (cm : CaseMapping) (s : InMemoryStore) :
    (∀ v, Query cm s [("service", v)] = Query cm s [("event.category", v)]) ∧
    (∀ v, Query cm s [("level", v)] = Query cm s [("severity", v)]) ∧
    (∀ v1 v2, Query cm s [("service", v1), ("event.category", v2)] =
      (Query cm s [("service", v1)]).filter
        (fun e => decide (e ∈ Query cm s [("event.category", v2)]))) ∧
    (∀ v1 v2, Query cm s [("level", v1), ("severity", v2)] =
      (Query cm s [("level", v1)]).filter
        (fun e => decide (e ∈ Query cm s [("severity", v2)]))) ∧
    (∀ v1 v2, cm.toLower v1 ≠ cm.toLower v2 →
      Query cm s [("service", v1), ("event.category", v2)] = []) ∧
    (∀ v1 v2, cm.toLower v1 ≠ cm.toLower v2 →
      Query cm s [("level", v1), ("severity", v2)] = []) := by
  refine ⟨fun v => ?_, fun v => ?_, fun v1 v2 => Query_pair cm s _ _,
    fun v1 v2 => Query_pair cm s _ _, fun v1 v2 h => ?_, fun v1 v2 h => ?_⟩
  · rw [Query_single, Query_single]
    rfl
  · rw [Query_single, Query_single]
    rfl
  · apply Query_pair_eq_nil
    intro log hboth
    simp only [satisfies, eqIgnoreCase] at hboth
    simp at hboth
    exact h (hboth.1.symm.trans hboth.2)
  · apply Query_pair_eq_nil
    intro log hboth
    simp only [satisfies, eqIgnoreCase] at hboth
    simp at hboth
    exact h (hboth.1.symm.trans hboth.2)

/-- C16, at a concrete input: the two test entries queried with
`service=login.audit` and `event.category=logout.audit`. -/
theorem C16_synonym_keys_witness :
    asciiCase.toLower "login.audit" ≠ asciiCase.toLower "logout.audit" ∧
    Query asciiCase (saveAll asciiCase NewInMemoryStore [testAdmin, testRoot])
      [("service", "login.audit"), ("event.category", "logout.audit")] = [] :=
  ⟨by decide,
   (C16_synonym_keys asciiCase
      (saveAll asciiCase NewInMemoryStore [testAdmin, testRoot])).2.2.2.2.1
      "login.audit" "logout.audit" (by decide)⟩

/-- C17: `Save` is an append as far as `Query` sees: the result after
`Save(e)` is the result before it, followed by `e` when `e` satisfies every
predicate of the map (the `match` flag of the loop) and by nothing otherwise;
the stored sequence is the old one with `e` at its end, and saving `e` twice
stores it twice. -/
theorem C17_save_appends (cm : CaseMapping) (s : InMemoryStore) (e : LogEntry)
    (params : Params) :
    Query cm (Save cm s e) params =
      Query cm s params ++ (if params.all (satisfies cm e) then [e] else []) ∧
    matchLog cm e params = params.all (satisfies cm e) ∧
    (Save cm s e).logs = s.logs ++ [e] ∧
    (Save cm (Save cm s e) e).logs = s.logs ++ [e, e] ∧
    Query cm (Save cm (Save cm s e) e) params =
      Query cm s params ++ (if params.all (satisfies cm e) then [e, e] else []) := by
  have h1 : ∀ t : InMemoryStore, Query cm (Save cm t e) params =
      Query cm t params ++ (if params.all (satisfies cm e) then [e] else []) := by
    intro t
    rw [Query_eq_filter, Query_eq_filter]
    show List.filter _ (t.logs ++ [e]) = _
    rw [List.filter_append]
    by_cases h : params.all (satisfies cm e) = true
    · simp [h]
    · simp [h]
  refine ⟨h1 s, matchLog_eq_all cm e params, rfl, by simp [Save], ?_⟩
  rw [h1 (Save cm s e), h1 s]
  by_cases h : params.all (satisfies cm e) = true
  · simp [h]
  · simp [h]

/-! ## Severity in `Query` and in `Metrics` -/

theorem asciiUpper_lower_char (c : Char) : asciiUpperChar (asciiLowerChar c) = asciiUpperChar c := by
  unfold asciiLowerChar
  by_cases h : 'A' ≤ c ∧ c ≤ 'Z'
  · rw [if_pos h]
    have h1 : 65 ≤ c.toNat := h.1
    have h2 : c.toNat ≤ 90 := h.2
    have hc : c = Char.ofNat c.toNat := (Char.ofNat_toNat c).symm
    generalize c.toNat = n at h1 h2 hc
    subst hc
    interval_cases n <;> decide
  · rw [if_neg h]

theorem asciiLower_upper_char (c : Char) : asciiLowerChar (asciiUpperChar c) = asciiLowerChar c := by
  unfold asciiUpperChar
  by_cases h : 'a' ≤ c ∧ c ≤ 'z'
  · rw [if_pos h]
    have h1 : 97 ≤ c.toNat := h.1
    have h2 : c.toNat ≤ 122 := h.2
    have hc : c = Char.ofNat c.toNat := (Char.ofNat_toNat c).symm
    generalize c.toNat = n at h1 h2 hc
    subst hc
    interval_cases n <;> decide
  · rw [if_neg h]

theorem asciiCase_lower_eq_iff (a b : String) :
    asciiCase.toLower a = asciiCase.toLower b ↔ asciiCase.toUpper a = asciiCase.toUpper b := by
  have hUL : ∀ x : String, asciiCase.toUpper (asciiCase.toLower x) = asciiCase.toUpper x := by
    intro x
    have hf : asciiUpperChar ∘ asciiLowerChar = asciiUpperChar :=
      funext asciiUpper_lower_char
    simp [asciiCase, hf]
  have hLU : ∀ x : String, asciiCase.toLower (asciiCase.toUpper x) = asciiCase.toLower x := by
    intro x
    have hf : asciiLowerChar ∘ asciiUpperChar = asciiLowerChar :=
      funext asciiLower_upper_char
    simp [asciiCase, hf]
  constructor
  · intro h
    rw [← hUL a, h, hUL b]
  · intro h
    rw [← hLU a, h, hLU b]

theorem severity_counts_agree (cm : CaseMapping) (ops : List StoreOp) (v : String)
    (h : ∀ e ∈ (runOps cm ops).logs,
      (cm.toLower e.Severity = cm.toLower v ↔ cm.toUpper e.Severity = cm.toUpper v)) :
    (Query cm (runOps cm ops) [("severity", v)]).length =
      (mapGet (Metrics (runOps cm ops)).by_severity (cm.toUpper v)).getD 0 := by
  obtain ⟨_, _, _, hsev⟩ := countsExact_runOps cm ops
  show _ = (mapGet (runOps cm ops).severityCount (cm.toUpper v)).getD 0
  rw [hsev, expectedCount_getD, Query_single]
  unfold countWhere
  congr 1
  apply List.filter_congr
  intro e he
  have := h e he
  simp only [satisfies, eqIgnoreCase]
  simp
  exact this

/-- C18 (as amended): in every store reachable from `NewInMemoryStore` by
`Save` and `Clear` calls, for a severity value `v` such that each stored
severity has the lower-case form of `v` exactly when it has the upper-case
form of `v`, the number of entries `Query` returns for `severity = v` is the
count `by_severity` holds under the upper-cased `v` (zero for no binding).
The condition holds for every store and value under the ASCII case functions. -/
theorem C18_severity_counts_agree (cm : CaseMapping) (ops : List StoreOp) (v : String) :
    ((∀ e ∈ (runOps cm ops).logs,
        (cm.toLower e.Severity = cm.toLower v ↔ cm.toUpper e.Severity = cm.toUpper v)) →
      (Query cm (runOps cm ops) [("severity", v)]).length =
        (mapGet (Metrics (runOps cm ops)).by_severity (cm.toUpper v)).getD 0) ∧
    (Query asciiCase (runOps asciiCase ops) [("severity", v)]).length =
      (mapGet (Metrics (runOps asciiCase ops)).by_severity (asciiCase.toUpper v)).getD 0 :=
  ⟨severity_counts_agree cm ops v,
   severity_counts_agree asciiCase ops v (fun e _ => asciiCase_lower_eq_iff e.Severity v)⟩

/-- C18, at a concrete input: the two test entries and the value `info`. -/
theorem C18_severity_counts_agree_witness :
    (∀ e ∈ (runOps asciiCase [StoreOp.save testAdmin, StoreOp.save testRoot]).logs,
      (asciiCase.toLower e.Severity = asciiCase.toLower "info" ↔
        asciiCase.toUpper e.Severity = asciiCase.toUpper "info")) ∧
    (Query asciiCase (runOps asciiCase [StoreOp.save testAdmin, StoreOp.save testRoot])
      [("severity", "info")]).length =
    (mapGet (Metrics (runOps asciiCase [StoreOp.save testAdmin,
      StoreOp.save testRoot])).by_severity (asciiCase.toUpper "info")).getD 0 :=
  ⟨by decide,
   (C18_severity_counts_agree asciiCase [StoreOp.save testAdmin, StoreOp.save testRoot]
      "info").1 (by decide)⟩

/-- C18 fails as stated: Go lower-cases the Kelvin sign to `k` and upper-cases
it to itself, so for a stored severity `OK` and the value `OK` written with
the Kelvin sign, `Query` returns the entry while `by_severity` has no binding
under the upper-cased value. -/
theorem C18_kelvin_sign_breaks_agreement :
    (Query kelvinCase (runOps kelvinCase [StoreOp.save testOk])
      [("severity", okWithKelvin)]).length = 1 ∧
    (mapGet (Metrics (runOps kelvinCase [StoreOp.save testOk])).by_severity
      (kelvinCase.toUpper okWithKelvin)).getD 0 = 0 := by
  decide

/-! ## The result of `Metrics` and the heap -/

theorem heapGet_set_self (heap : MapHeap) (a : Nat) (m : CountMap) (h : a < heap.length) :
    heapGet (heap.set a m) a = m := by
  simp [heapGet, List.getElem?_set_self h]

theorem heapGet_set_ne (heap : MapHeap) (a b : Nat) (m : CountMap) (h : a ≠ b) :
    heapGet (heap.set a m) b = heapGet heap b := by
  simp [heapGet, List.getElem?_set_ne h]

theorem storeOf_saveMemory (cm : CaseMapping) (w : Memory) (e : LogEntry) (h : ValidRefs w) :
    storeOf (saveMemory cm w e) = Save cm (storeOf w) e ∧ ValidRefs (saveMemory cm w e) := by
  obtain ⟨hc, hs, hne⟩ := h
  constructor
  · simp only [storeOf, saveMemory, Save]
    rw [heapGet_set_ne _ _ _ _ hne, heapGet_set_ne _ _ _ _ hne.symm,
      heapGet_set_self _ _ _ hc, heapGet_set_self _ _ _ (by rw [List.length_set]; exact hs)]
  · simp only [ValidRefs, saveMemory, List.length_set]
    exact ⟨hc, hs, hne⟩

theorem storeOf_clearMemory (w : Memory) :
    storeOf (clearMemory w) = Clear (storeOf w) ∧ ValidRefs (clearMemory w) := by
  constructor
  · have h0 : (w.heap ++ [([] : CountMap), []])[w.heap.length]? = some [] := by
      rw [List.getElem?_append_right (Nat.le_refl _)]
      simp
    have h1 : (w.heap ++ [([] : CountMap), []])[w.heap.length + 1]? = some [] := by
      rw [List.getElem?_append_right (Nat.le_succ _)]
      simp
    simp only [storeOf, clearMemory, Clear, heapGet, List.getD_eq_getElem?_getD, h0, h1,
      Option.getD_some]
  · simp [ValidRefs, clearMemory]

theorem storeOf_runMemory (cm : CaseMapping) (w : Memory) (ops : List StoreOp)
    (h : ValidRefs w) :
    storeOf (runMemory cm w ops) = ops.foldl (applyOp cm) (storeOf w) := by
  unfold runMemory
  induction ops generalizing w with
  | nil => rfl
  | cons op rest ih =>
    rw [List.foldl_cons, List.foldl_cons]
    cases op with
    | save e =>
      obtain ⟨h1, h2⟩ := storeOf_saveMemory cm w e h
      show storeOf (List.foldl (applyOpMemory cm) (saveMemory cm w e) rest) =
        List.foldl (applyOp cm) (Save cm (storeOf w) e) rest
      rw [ih _ h2, h1]
    | clear =>
      obtain ⟨h1, h2⟩ := storeOf_clearMemory w
      show storeOf (List.foldl (applyOpMemory cm) (clearMemory w) rest) =
        List.foldl (applyOp cm) (Clear (storeOf w)) rest
      rw [ih _ h2, h1]

theorem storeOf_runMemory_new (cm : CaseMapping) (ops : List StoreOp) :
    storeOf (runMemory cm newMemory ops) = runOps cm ops :=
  storeOf_runMemory cm newMemory ops ⟨by decide, by decide, by decide⟩
theorem validRefs_runMemory (cm : CaseMapping) (w : Memory) (ops : List StoreOp)
    (h : ValidRefs w) : ValidRefs (runMemory cm w ops) := by
  unfold runMemory
  induction ops generalizing w with
  | nil => exact h
  | cons op rest ih =>
    rw [List.foldl_cons]
    apply ih
    cases op with
    | save e => exact (storeOf_saveMemory cm w e h).2
    | clear => exact (storeOf_clearMemory w).2

theorem metricsHandler_after_save (cm : CaseMapping) (ops : List StoreOp) (e : LogEntry) :
    (metricsHandler cm (runMemory cm newMemory ops) [StoreOp.save e]).total_logs + 1 =
      mapSum (metricsHandler cm (runMemory cm newMemory ops) [StoreOp.save e]).by_category := by
  have hv : ValidRefs (runMemory cm newMemory ops) :=
    validRefs_runMemory cm newMemory ops ⟨by decide, by decide, by decide⟩
  have hs := storeOf_runMemory_new cm ops
  obtain ⟨h1, h2, _⟩ := consistent_runOps cm ops
  rw [← hs] at h1 h2
  generalize runMemory cm newMemory ops = w at hv h1 h2
  obtain ⟨hc, hsv, hne⟩ := hv
  show w.store.totalLogs + 1 = mapSum (heapGet (saveMemory cm w e).heap w.store.categoryCount)
  simp only [saveMemory]
  rw [heapGet_set_ne _ _ _ _ hne.symm, heapGet_set_self _ _ _ hc, mapSum_mapIncr]
  simp only [storeOf] at h1 h2
  rw [h1, h2]

/-- C15, on the code: the store with its maps as references agrees with the
store of values on every sequence of calls, and `metricsHandler` writes the
result of `Metrics` when no call completes between `store.Metrics()` and the
encoding.  When a `Save` completes in between, the total written is the old
one and the category counts are the new ones: they sum to one more than the
total, which the result of `Metrics` does in no state reached by whole calls.
On a fresh store with one such `Save` the handler writes a total of zero
beside one counted entry. -/
theorem C15_metrics_result_reads_live_maps :
    (∀ (cm : CaseMapping) (ops : List StoreOp),
      storeOf (runMemory cm newMemory ops) = runOps cm ops) ∧
    (∀ (cm : CaseMapping) (w : Memory), metricsHandler cm w [] = Metrics (storeOf w)) ∧
    (∀ (cm : CaseMapping) (ops : List StoreOp) (e : LogEntry),
      (metricsHandler cm (runMemory cm newMemory ops) [StoreOp.save e]).total_logs + 1 =
        mapSum (metricsHandler cm (runMemory cm newMemory ops) [StoreOp.save e]).by_category) ∧
    (∀ (cm : CaseMapping) (ops : List StoreOp),
      (Metrics (runOps cm ops)).total_logs = mapSum (Metrics (runOps cm ops)).by_category) ∧
    metricsHandler asciiCase newMemory [StoreOp.save testAdmin] =
      { total_logs := 0, by_category := [("login.audit", 1)], by_severity := [("INFO", 1)] } := by
  refine ⟨storeOf_runMemory_new, fun _ _ => rfl, metricsHandler_after_save, fun cm ops => ?_,
    by decide⟩
  obtain ⟨h1, h2, _⟩ := consistent_runOps cm ops
  show (runOps cm ops).totalLogs = mapSum (runOps cm ops).categoryCount
  rw [h1, h2]

end LogServer

namespace LogCollector

/-! ## `extractUsername` -/

theorem dropLiteral_eq_some (p cs r : List Char) : dropLiteral p cs = some r ↔ cs = p ++ r := by
  induction p generalizing cs with
  | nil =>
    simp only [dropLiteral, List.nil_append, Option.some.injEq]
  | cons a ps ih =>
    cases cs with
    | nil => simp [dropLiteral]
    | cons c cs =>
      by_cases h : a = c
      · subst h
        simp [dropLiteral, ih]
      · have h' : ¬ c = a := fun e => h e.symm
        simp [dropLiteral, h, h']

theorem takeWhile_token (X rest : List Char) (hX : ∀ c ∈ X, isWordChar c = true)
    (hrest : ∀ c, rest.head? = some c → isWordChar c = false) :
    (X ++ rest).takeWhile isWordChar = X := by
  induction X with
  | nil =>
    cases rest with
    | nil => rfl
    | cons c r =>
      have hc : isWordChar c = false := hrest c rfl
      simp [List.takeWhile_cons, hc]
  | cons x xs ih =>
    have hx : isWordChar x = true := hX x (List.mem_cons_self _ _)
    rw [List.cons_append, List.takeWhile_cons_of_pos hx,
      ih (fun c hc => hX c (List.mem_cons_of_mem _ hc))]

theorem matchHere_of_pattern (cs X rest : List Char) (h : PatternAt cs [] X rest) :
    matchHere cs = some X := by
  obtain ⟨hcs, hne, hX, hrest⟩ := h
  rw [List.nil_append] at hcs
  have hd : dropLiteral "user ".data cs = some (X ++ rest) := (dropLiteral_eq_some _ _ _).2 hcs
  unfold matchHere
  rw [hd]
  simp only [takeWhile_token X rest hX hrest, if_neg hne]

theorem pattern_of_matchHere (cs w : List Char) (h : matchHere cs = some w) :
    ∃ rest, PatternAt cs [] w rest := by
  unfold matchHere at h
  cases hd : dropLiteral "user ".data cs with
  | none => rw [hd] at h; cases h
  | some r =>
    rw [hd] at h
    simp only at h
    by_cases hnil : r.takeWhile isWordChar = []
    · rw [if_pos hnil] at h; cases h
    · rw [if_neg hnil] at h
      have hw : r.takeWhile isWordChar = w := Option.some.inj h
      refine ⟨r.dropWhile isWordChar, ?_, ?_, ?_, ?_⟩
      · rw [List.nil_append, ← hw, List.takeWhile_append_dropWhile]
        exact (dropLiteral_eq_some _ _ _).1 hd
      · rw [← hw]; exact hnil
      · intro c hc
        rw [← hw] at hc
        exact List.mem_takeWhile_imp hc
      · intro c hc
        have := List.head?_dropWhile_not isWordChar r
        rw [hc] at this
        exact this

theorem patternAt_cons (c : Char) (cs pre X rest : List Char) (h : PatternAt cs pre X rest) :
    PatternAt (c :: cs) (c :: pre) X rest := by
  obtain ⟨hcs, hne, hX, hrest⟩ := h
  exact ⟨by rw [hcs]; rfl, hne, hX, hrest⟩

theorem findMatch_none (cs : List Char) (i : Nat)
    (h : ∀ pre X rest, ¬ PatternAt cs pre X rest) : findMatch cs i = none := by
  induction cs generalizing i with
  | nil => rfl
  | cons c cs ih =>
    unfold findMatch
    cases hm : matchHere (c :: cs) with
    | some w =>
      obtain ⟨rest, hp⟩ := pattern_of_matchHere _ _ hm
      exact absurd hp (h [] w rest)
    | none =>
      simp only
      exact ih (i + 1) (fun pre X rest hp => h (c :: pre) X rest (patternAt_cons c cs pre X rest hp))

theorem findMatch_leftmost (pre cs X rest : List Char) (i : Nat) (h : PatternAt cs pre X rest)
    (hleft : ∀ pre' X' rest', PatternAt cs pre' X' rest' → pre.length ≤ pre'.length) :
    findMatch cs i = some (i + pre.length, X) := by
  induction pre generalizing cs i with
  | nil =>
    have hm := matchHere_of_pattern cs X rest h
    cases cs with
    | nil =>
      obtain ⟨hcs, _⟩ := h
      simp at hcs
    | cons c cs =>
      unfold findMatch
      rw [hm]
      rfl
  | cons p pre ih =>
    obtain ⟨hcs, hne, hX, hrest⟩ := h
    rw [List.cons_append] at hcs
    subst hcs
    unfold findMatch
    cases hm : matchHere (p :: (pre ++ ("user ".data ++ (X ++ rest)))) with
    | some w =>
      obtain ⟨rest', hp⟩ := pattern_of_matchHere _ _ hm
      have := hleft [] w rest' hp
      simp at this
    | none =>
      simp only
      have hp : PatternAt (pre ++ ("user ".data ++ (X ++ rest))) pre X rest :=
        ⟨rfl, hne, hX, hrest⟩
      rw [ih _ (i + 1) hp (fun pre' X' rest' hp' => by
        have := hleft (p :: pre') X' rest' (patternAt_cons p _ pre' X' rest' hp')
        simpa using this)]
      simp only [List.length_cons]
      congr 2
      omega

theorem findMatch_bound (pre cs X rest : List Char) (i : Nat) (h : PatternAt cs pre X rest) :
    ∃ j w, findMatch cs i = some (i + j, w) ∧ j ≤ pre.length := by
  induction pre generalizing cs i with
  | nil =>
    have hm := matchHere_of_pattern cs X rest h
    cases cs with
    | nil =>
      obtain ⟨hcs, _⟩ := h
      simp at hcs
    | cons c cs =>
      refine ⟨0, X, ?_, Nat.le_refl _⟩
      unfold findMatch
      rw [hm]
      rfl
  | cons p pre ih =>
    obtain ⟨hcs, hne, hX, hrest⟩ := h
    rw [List.cons_append] at hcs
    subst hcs
    unfold findMatch
    cases hm : matchHere (p :: (pre ++ ("user ".data ++ (X ++ rest)))) with
    | some w => exact ⟨0, w, rfl, Nat.zero_le _⟩
    | none =>
      simp only
      obtain ⟨j, w, hj, hle⟩ := ih (pre ++ ("user ".data ++ (X ++ rest))) (i + 1)
        ⟨rfl, hne, hX, hrest⟩
      refine ⟨j + 1, w, ?_, by simpa using hle⟩
      rw [hj]
      congr 2
      omega

/-- C10: `extractUsername` returns the word token `X` of the leftmost
occurrence of the pattern "user X" in the message, `X` being the longest
non-empty run of word characters after `user `; it returns `unknown` when the
message holds no such pattern.  For the message of `TestParseLogMessage` the
username is `root`. -/
theorem C10_extractUsername_leftmost_token :
    (∀ (msg : String) (pre X rest : List Char), PatternAt msg.data pre X rest →
      (∀ pre' X' rest', PatternAt msg.data pre' X' rest' → pre.length ≤ pre'.length) →
      extractUsername msg = String.mk X) ∧
    (∀ msg : String, (∀ pre X rest, ¬ PatternAt msg.data pre X rest) →
      extractUsername msg = "unknown") ∧
    extractUsername testMessage = "root" := by
  refine ⟨fun msg pre X rest h hleft => ?_, fun msg h => ?_, by decide⟩
  · unfold extractUsername FindStringSubmatch
    rw [findMatch_leftmost pre msg.data X rest 0 h hleft]
    simp
  · unfold extractUsername FindStringSubmatch
    rw [findMatch_none msg.data 0 h]
    simp

/-- C10, at concrete inputs: the message of `TestParseLogMessage`, whose
leftmost pattern starts at offset 64, and the empty message. -/
theorem C10_extractUsername_leftmost_token_witness :
    PatternAt testMessage.data
      "<86> aiops9242 sudo: pam_unix(sudo:session): session opened for ".data "root".data
      "(uid=0) by motadata(uid=1000)".data ∧
    extractUsername testMessage = String.mk "root".data ∧
    extractUsername "" = "unknown" := by
  have hp : PatternAt testMessage.data
      "<86> aiops9242 sudo: pam_unix(sudo:session): session opened for ".data "root".data
      "(uid=0) by motadata(uid=1000)".data := by
    refine ⟨by decide, by decide, by decide, ?_⟩
    intro c hc
    have hc' : c = '(' := (Option.some.inj hc).symm
    subst hc'
    decide
  have hleft : ∀ pre' X' rest', PatternAt testMessage.data pre' X' rest' →
      "<86> aiops9242 sudo: pam_unix(sudo:session): session opened for ".data.length ≤
        pre'.length := by
    intro pre' X' rest' h'
    obtain ⟨j, w, hj, hle⟩ := findMatch_bound pre' testMessage.data X' rest' 0 h'
    have hfm : findMatch testMessage.data 0 = some (64, "root".data) := by decide
    rw [hfm] at hj
    have h64 : 64 = 0 + j := congrArg Prod.fst (Option.some.inj hj)
    have hlen : "<86> aiops9242 sudo: pam_unix(sudo:session): session opened for ".data.length
        = 64 := by decide
    omega
  have hnone : ∀ pre X rest, ¬ PatternAt "".data pre X rest := by
    intro pre X rest h
    obtain ⟨hcs, _⟩ := h
    have := congrArg List.length hcs
    simp at this
    omega
  exact ⟨hp, C10_extractUsername_leftmost_token.1 testMessage _ _ _ hp hleft,
    C10_extractUsername_leftmost_token.2.1 "" hnone⟩

/-! ## `extractSeverity` -/

theorem hasPrefix_iff (substr cs : List Char) :
    hasPrefix substr cs = true ↔ ∃ post, cs = substr ++ post := by
  unfold hasPrefix
  rw [Option.isSome_iff_exists]
  exact exists_congr (fun post => dropLiteral_eq_some substr cs post)

theorem containsChars_iff (substr cs : List Char) :
    containsChars substr cs = true ↔ HasSubstring cs substr := by
  induction cs with
  | nil =>
    unfold containsChars HasSubstring
    rw [hasPrefix_iff]
    constructor
    · rintro ⟨post, h⟩
      exact ⟨[], post, h⟩
    · rintro ⟨pre, post, h⟩
      have hpre : pre = [] := (List.append_eq_nil.1 h.symm).1
      subst hpre
      exact ⟨post, h⟩
  | cons c cs ih =>
    unfold containsChars
    rw [Bool.or_eq_true, hasPrefix_iff, ih]
    unfold HasSubstring
    constructor
    · rintro (⟨post, h⟩ | ⟨pre, post, h⟩)
      · exact ⟨[], post, h⟩
      · exact ⟨c :: pre, post, by rw [h]; rfl⟩
    · rintro ⟨pre, post, h⟩
      cases pre with
      | nil => exact Or.inl ⟨post, h⟩
      | cons a pre =>
        rw [List.cons_append] at h
        exact Or.inr ⟨pre, post, (List.cons.inj h).2⟩

theorem extractSeverity_info_iff (msg : String) :
    extractSeverity msg = "INFO" ↔ HasSubstring msg.data "<86>".data := by
  unfold extractSeverity stringsContains
  rw [← containsChars_iff]
  by_cases h : containsChars "<86>".data msg.data = true
  · simp [h]
  · simp [h]

theorem hasNumericMarker_of_86 (msg : List Char) (h : HasSubstring msg "<86>".data) :
    HasNumericMarker msg := by
  obtain ⟨pre, post, hm⟩ := h
  refine ⟨pre, ['8', '6'], post, ?_, by decide, by decide⟩
  rw [hm]
  rfl

/-- C11 (as amended): `extractSeverity` returns `INFO` exactly when the message
holds the text `<86>` and `UNKNOWN` otherwise, and no third value; a message
classified `INFO` does hold a bracketed numeric marker.  The message of
`TestParseLogMessage` is classified `INFO`. -/
theorem C11_extractSeverity_literal_marker (msg : String) :
    (extractSeverity msg = "INFO" ↔ HasSubstring msg.data "<86>".data) ∧
    (extractSeverity msg = "UNKNOWN" ↔ ¬ HasSubstring msg.data "<86>".data) ∧
    (extractSeverity msg = "INFO" ∨ extractSeverity msg = "UNKNOWN") ∧
    (extractSeverity msg = "INFO" → HasNumericMarker msg.data) ∧
    extractSeverity testMessage = "INFO" := by
  have hinfo := extractSeverity_info_iff msg
  have hcases : extractSeverity msg = "INFO" ∨ extractSeverity msg = "UNKNOWN" := by
    unfold extractSeverity
    by_cases h : stringsContains msg "<86>" = true
    · exact Or.inl (by rw [if_pos h])
    · exact Or.inr (by rw [if_neg h])
  refine ⟨hinfo, ?_, hcases, fun h => hasNumericMarker_of_86 _ (hinfo.1 h), by decide⟩
  constructor
  · intro hu hs
    have hi := hinfo.2 hs
    rw [hu] at hi
    exact absurd hi (by decide)
  · intro hn
    rcases hcases with hi | hu
    · exact absurd (hinfo.1 hi) hn
    · exact hu

/-- C11, at a concrete input: a message with `<86>` in the middle. -/
theorem C11_extractSeverity_literal_marker_witness :
    extractSeverity "sshd <86> session" = "INFO" ∧
    HasNumericMarker "sshd <86> session".data :=
  ⟨by decide, (C11_extractSeverity_literal_marker "sshd <86> session").2.2.2.1 (by decide)⟩

/-- C11 fails as stated: the message holds the bracketed numeric marker `<85>`
and is classified `UNKNOWN`. -/
theorem C11_other_marker_is_unknown :
    HasNumericMarker "<85> aiops9242 sudo: session closed for user root".data ∧
    extractSeverity "<85> aiops9242 sudo: session closed for user root" = "UNKNOWN" :=
  ⟨⟨[], ['8', '5'], " aiops9242 sudo: session closed for user root".data, by decide,
    by decide, by decide⟩, by decide⟩

/-! ## `processLog` -/

/-- C12: the record `processLog` builds has the username `extractUsername`
finds in the message, and its `IsBlacklisted` flag is set exactly when that
username is `root` or `motadata`, the two keys of `blacklist`: set for
`root`, not set for `alice`, not set for a message with no username. -/
theorem C12_blacklist_flag (raw : RawLog) :
    (processLog raw).Username = extractUsername raw.Message ∧
    ((processLog raw).IsBlacklisted = true ↔
      (processLog raw).Username ∈ blacklist.map Prod.fst) ∧
    blacklist.map Prod.fst = ["root", "motadata"] ∧
    (processLog { raw with Message := "session opened for user root" }).IsBlacklisted = true ∧
    (processLog { raw with Message := "session opened for user alice" }).IsBlacklisted = false ∧
    (processLog { raw with Message := "session opened" }).Username = "unknown" ∧
    (processLog { raw with Message := "session opened" }).IsBlacklisted = false := by
  refine ⟨rfl, ?_, rfl, ?_, ?_, ?_, ?_⟩
  rotate_left
  · show (LogServer.mapGet blacklist (extractUsername "session opened for user root")).getD
      false = true
    decide
  · show (LogServer.mapGet blacklist (extractUsername "session opened for user alice")).getD
      false = false
    decide
  · show extractUsername "session opened" = "unknown"
    decide
  · show (LogServer.mapGet blacklist (extractUsername "session opened")).getD false = false
    decide
  show ((LogServer.mapGet blacklist (extractUsername raw.Message)).getD false = true ↔
    extractUsername raw.Message ∈ blacklist.map Prod.fst)
  generalize extractUsername raw.Message = u
  by_cases h1 : "root" = u
  · subst h1
    decide
  · by_cases h2 : "motadata" = u
    · subst h2
      decide
    · have h1' : ¬ u = "root" := fun e => h1 e.symm
      have h2' : ¬ u = "motadata" := fun e => h2 e.symm
      simp [blacklist, LogServer.mapGet, h1, h2, h1', h2']

/-- C13, on the code: the record `processLog` builds carries the timestamp,
hostname, category and message of the raw event, but `EnrichedLog` has no
field for the source type, so the JSON object that is forwarded has no
`event.source.type` member and the server decodes an empty `EventSource`,
whatever the raw event held; for the event of the login client, `linux` is
lost. -/
theorem C13_event_source_type_not_forwarded (raw : RawLog) :
    (processLog raw).Timestamp = raw.Timestamp ∧
    (processLog raw).Hostname = raw.Hostname ∧
    (processLog raw).EventCategory = raw.EventCategory ∧
    (processLog raw).RawMessage = raw.Message ∧
    LogServer.mapGet (marshalEnriched (processLog raw)) "event.source.type" = none ∧
    (decodeLogEntry (marshalEnriched (processLog raw))).EventSource = "" ∧
    clientEvent.EventSourceType = "linux" ∧
    (decodeLogEntry (marshalEnriched (processLog clientEvent))).EventSource ≠
      clientEvent.EventSourceType := by
  refine ⟨rfl, rfl, rfl, rfl, ?_, ?_, rfl, by decide⟩
  · simp [marshalEnriched, LogServer.mapGet]
  · simp [decodeLogEntry, stringMember, marshalEnriched, LogServer.mapGet]

/-! ## `handleConnection` -/

theorem byteLength_replicate (n : Nat) : byteLength (String.mk (List.replicate n 'a')) = n := by
  unfold byteLength
  induction n with
  | zero => rfl
  | succ k ih =>
    have h1 : Char.utf8Size 'a' = 1 := by decide
    rw [List.replicate_succ, List.map_cons, List.sum_cons, ih, h1]
    omega

theorem byteLength_longLine : byteLength longLine = MaxScanTokenSize :=
  byteLength_replicate MaxScanTokenSize

theorem connectionLoop_eq_filterMap (decode : String → Option RawLog) (tokens : List String) :
    connectionLoop decode tokens = tokens.filterMap decode := by
  induction tokens with
  | nil => rfl
  | cons token rest ih =>
    unfold connectionLoop
    cases h : decode token with
    | none => simp [List.filterMap_cons, h, ih]
    | some r => simp [List.filterMap_cons, h, ih]

theorem scanTokens_short (lines : List String)
    (h : ∀ l ∈ lines, byteLength l < MaxScanTokenSize) : scanTokens lines = lines.map dropCR := by
  induction lines with
  | nil => rfl
  | cons line rest ih =>
    have hl : ¬ byteLength line ≥ MaxScanTokenSize :=
      Nat.not_le.2 (h line (List.mem_cons_self _ _))
    unfold scanTokens
    rw [if_neg hl, ih (fun l hl' => h l (List.mem_cons_of_mem _ hl')), List.map_cons]

theorem scanTokens_stops (before after : List String) (long : String)
    (hb : ∀ l ∈ before, byteLength l < MaxScanTokenSize)
    (hl : byteLength long ≥ MaxScanTokenSize) :
    scanTokens (before ++ long :: after) = scanTokens before := by
  induction before with
  | nil =>
    show scanTokens (long :: after) = []
    unfold scanTokens
    rw [if_pos hl]
  | cons line rest ih =>
    have hline : ¬ byteLength line ≥ MaxScanTokenSize :=
      Nat.not_le.2 (hb line (List.mem_cons_self _ _))
    rw [List.cons_append]
    unfold scanTokens
    rw [if_neg hline, if_neg hline, ih (fun l hl' => hb l (List.mem_cons_of_mem _ hl'))]

/-- What `handleConnection` hands to `processLog`, for every decoder: while
the lines fit the buffer of the scanner, the successful decodings of the
tokens, one per decodable line and in the order of the lines, a line that does
not decode being skipped; and nothing of what follows a line that does not
fit. -/
theorem handleConnection_records (decode : String → Option RawLog)
    (lines : List String) :
    ((∀ l ∈ lines, byteLength l < MaxScanTokenSize) →
      handleConnection decode lines = (lines.map dropCR).filterMap decode) ∧
    ((∀ l ∈ lines, byteLength l < MaxScanTokenSize) → (∀ l ∈ lines, dropCR l = l) →
      handleConnection decode lines = lines.filterMap decode) ∧
    (∀ (long : String) (after : List String),
      (∀ l ∈ lines, byteLength l < MaxScanTokenSize) → byteLength long ≥ MaxScanTokenSize →
      handleConnection decode (lines ++ long :: after) = handleConnection decode lines) := by
  refine ⟨fun h => ?_, fun h hcr => ?_, fun long after h hl => ?_⟩
  · unfold handleConnection
    rw [connectionLoop_eq_filterMap, scanTokens_short lines h]
  · unfold handleConnection
    rw [connectionLoop_eq_filterMap, scanTokens_short lines h]
    have hmap : lines.map dropCR = lines := by
      rw [List.map_congr_left hcr, List.map_id']
    rw [hmap]
  · unfold handleConnection
    rw [scanTokens_stops lines after long h hl]

set_option maxRecDepth 100000 in
/-- The records handed over at a concrete input: a line that is no JSON, the
line of the login client, an empty line and the line of the client again; and
the same lines with `longLine` and one more line after them. -/
theorem handleConnection_records_example :
    handleConnection sampleUnmarshal ["not json", clientLine, "", clientLine] =
      [clientEvent, clientEvent] ∧
    handleConnection sampleUnmarshal
      (["not json", clientLine, "", clientLine] ++ longLine :: [clientLine]) =
      [clientEvent, clientEvent] :=
  ⟨((handleConnection_records sampleUnmarshal
      ["not json", clientLine, "", clientLine]).2.1 (by decide) (by decide)).trans (by decide),
   ((handleConnection_records sampleUnmarshal
      ["not json", clientLine, "", clientLine]).2.2 longLine [clientLine] (by decide)
      (Nat.le_of_eq byteLength_longLine.symm)).trans
    (((handleConnection_records sampleUnmarshal
      ["not json", clientLine, "", clientLine]).1 (by decide)).trans (by decide))⟩

set_option maxRecDepth 100000 in
/-- C19, on the code: a line that does not decode is skipped and the line
after it is read and handed to `processLog`, the branch of the loop that logs
and continues.  A line of 65536 bytes, which the scanner cannot hold, ends the
loop instead: the line of the login client after it, which decodes, is never
read, so nothing is handed over while the successful decodings of the two
lines are one record. -/
theorem C19_long_line_ends_reading :
    handleConnection sampleUnmarshal ["not json", clientLine] = [clientEvent] ∧
    byteLength longLine = 65536 ∧
    sampleUnmarshal clientLine = some clientEvent ∧
    handleConnection sampleUnmarshal [longLine, clientLine] = [] ∧
    [longLine, clientLine].filterMap sampleUnmarshal = [clientEvent] := by
  have hlen : byteLength longLine ≥ MaxScanTokenSize := Nat.le_of_eq byteLength_longLine.symm
  have hne : longLine ≠ clientLine := by
    intro h
    have h1 : byteLength clientLine = MaxScanTokenSize := by rw [← h, byteLength_longLine]
    have h2 : byteLength clientLine < MaxScanTokenSize := by decide
    omega
  have hc : sampleUnmarshal clientLine = some clientEvent := by
    unfold sampleUnmarshal
    rw [if_pos rfl]
  refine ⟨by decide, byteLength_longLine, hc, ?_, ?_⟩
  · unfold handleConnection scanTokens
    rw [if_pos hlen]
    rfl
  · have hl : sampleUnmarshal longLine = none := by
      unfold sampleUnmarshal
      rw [if_neg hne]
    simp [List.filterMap_cons, hl, hc]

/-! ## `forwardToLogServer` -/

/-- C20: `forwardToLogServer` logs a rejection for every response whose status
is not 202, and `ingestLogHandler` replies 200 for every body that decodes,
having stored the entry; so for every body the server stores, the collector
logs a rejection. -/
theorem C20_stored_record_logged_as_rejected :
    (∀ (post : String → Option Nat) (jsonData : String) (statusCode : Nat),
      post jsonData = some statusCode →
      (forwardToLogServer post jsonData = ForwardLog.rejected ↔ statusCode ≠ 202)) ∧
    (∀ (decode : String → Option LogServer.LogEntry) (cm : LogServer.CaseMapping)
      (s : LogServer.InMemoryStore) (body : String) (e : LogServer.LogEntry),
      decode body = some e →
      LogServer.ingestLogHandler decode cm s body = (LogServer.Save cm s e, 200)) ∧
    (∀ (decode : String → Option LogServer.LogEntry) (cm : LogServer.CaseMapping)
      (s : LogServer.InMemoryStore) (body : String) (e : LogServer.LogEntry),
      decode body = some e →
      forwardToLogServer (ingestEndpoint decode cm s) body = ForwardLog.rejected) := by
  refine ⟨fun post jsonData statusCode h => ?_, fun decode cm s body e h => ?_,
    fun decode cm s body e h => ?_⟩
  · unfold forwardToLogServer
    rw [h]
    show (if statusCode ≠ 202 then ForwardLog.rejected else ForwardLog.nothing) =
      ForwardLog.rejected ↔ statusCode ≠ 202
    by_cases hs : statusCode = 202
    · simp [hs]
    · simp [hs]
  · unfold LogServer.ingestLogHandler
    rw [h]
    rfl
  · unfold forwardToLogServer ingestEndpoint LogServer.ingestLogHandler
    rw [h]
    rfl

set_option maxRecDepth 100000 in
/-- C20, at a concrete input: the body of `TestIngestLogHandler` posted to a
fresh store. -/
theorem C20_stored_record_logged_as_rejected_witness :
    LogServer.sampleDecode LogServer.testIngestBody = some LogServer.testIngestEntry ∧
    forwardToLogServer
      (ingestEndpoint LogServer.sampleDecode LogServer.asciiCase LogServer.NewInMemoryStore)
      LogServer.testIngestBody = ForwardLog.rejected ∧
    (forwardToLogServer (fun _ => some 202) LogServer.testIngestBody = ForwardLog.rejected ↔
      202 ≠ 202) :=
  ⟨by decide,
   C20_stored_record_logged_as_rejected.2.2 LogServer.sampleDecode LogServer.asciiCase
     LogServer.NewInMemoryStore LogServer.testIngestBody LogServer.testIngestEntry (by decide),
   C20_stored_record_logged_as_rejected.1 (fun _ => some 202) LogServer.testIngestBody 202 rfl⟩

end LogCollector
